import Mathlib

/-!
# Verification of the gaphas canvas core

Shallow embedding of the gaphas diagram-engine core (canvas update
pipeline, item tree, matrix composition, connections registry,
connector aspects, update contexts) with proofs of the specification's
claims about it.

Numeric state (cairo matrices, handle coordinates, distances) is
modelled over `ℚ`; floating-point tolerances such as "to within 1e-9"
are therefore realised as exact equalities.

Components of the repository whose source files are not part of the
slice under verification (`tree.py`, `decorators.py`, `sort.py`,
`connections.py`, the solver internals) are modelled from the
specification; each such definition carries a doc comment starting
with `Modelled from the spec:`.
-/

namespace Gaphas

/-- A 2D point with rational coordinates. -/
@[ext]
structure Point where
  x : ℚ
  y : ℚ
deriving DecidableEq, Repr

/-- A cairo affine matrix `(xx, yx, xy, yy, x0, y0)`:
`x' = xx*x + xy*y + x0`, `y' = yx*x + yy*y + y0`
(`cairo.Matrix`, as used by `gaphas/canvas.py`). -/
structure Mat where
  xx : ℚ
  yx : ℚ
  xy : ℚ
  yy : ℚ
  x0 : ℚ
  y0 : ℚ
deriving DecidableEq, Repr

namespace Mat

/-- Apply the matrix to a point (`cairo.Matrix.transform_point`). -/
def transformPoint (m : Mat) (p : Point) : Point :=
  ⟨m.xx * p.x + m.xy * p.y + m.x0, m.yx * p.x + m.yy * p.y + m.y0⟩

/-- The identity matrix. -/
def idMat : Mat := ⟨1, 0, 0, 1, 0, 0⟩

/-- cairo matrix multiplication: `mul a b` is the transformation that
applies `a` first and then `b` (`cairo_matrix_multiply`); `m1 *= m2` in
Python is `m1 := mul m1 m2`. -/
def mul (a b : Mat) : Mat :=
  ⟨b.xx * a.xx + b.xy * a.yx,
   b.yx * a.xx + b.yy * a.yx,
   b.xx * a.xy + b.xy * a.yy,
   b.yx * a.xy + b.yy * a.yy,
   b.xx * a.x0 + b.xy * a.y0 + b.x0,
   b.yx * a.x0 + b.yy * a.y0 + b.y0⟩

/-- `cairo_matrix_translate m tx ty`: the new transformation first
translates by `(tx, ty)` and then applies `m`. -/
def translate (m : Mat) (tx ty : ℚ) : Mat :=
  mul ⟨1, 0, 0, 1, tx, ty⟩ m

/-- The determinant of the linear part. -/
def det (m : Mat) : ℚ := m.xx * m.yy - m.xy * m.yx

/-- `cairo.Matrix.invert`, returning `none` on a singular matrix
(where cairo raises). -/
def inv (m : Mat) : Option Mat :=
  if m.det = 0 then none
  else
    some ⟨m.yy / m.det, -m.yx / m.det, -m.xy / m.det, m.xx / m.det,
          (m.xy * m.y0 - m.yy * m.x0) / m.det,
          (m.yx * m.x0 - m.xx * m.y0) / m.det⟩

theorem transformPoint_mul (a b : Mat) (p : Point) :
    (mul a b).transformPoint p = b.transformPoint (a.transformPoint p) := by
  simp only [transformPoint, mul]
  ext <;> ring

theorem transformPoint_translate (m : Mat) (tx ty : ℚ) (p : Point) :
    (m.translate tx ty).transformPoint p
      = m.transformPoint ⟨p.x + tx, p.y + ty⟩ := by
  simp only [translate]
  rw [transformPoint_mul]
  simp only [transformPoint]
  ext <;> ring

theorem mul_idMat (m : Mat) : mul m idMat = m := by
  cases m
  simp [mul, idMat]

end Mat

/-! ## C10: the update/draw `Context` object (`canvas.py`, `Context`)

`Context.__init__` copies the keyword arguments into the instance
dictionary; `Context.__setattr__` unconditionally raises
`AttributeError('context is not writable')`. -/

/-- A Python attribute value (opaque payloads suffice for the claims). -/
inductive PyVal where
  | int (n : Int)
  | str (s : String)
  | obj (id : Nat)
deriving DecidableEq, Repr

/-- A Python exception kind observable from the embedded code. -/
inductive PyErr where
  | attributeError (msg : String)
deriving DecidableEq, Repr

/-- `Context` (`gaphas/canvas.py` lines 18-35): an attribute
dictionary populated once at construction. -/
structure Context where
  attrs : List (String × PyVal)
deriving DecidableEq, Repr

/-- `Context.__init__(self, **kwargs)`: `self.__dict__.update(**kwargs)`
(bypasses `__setattr__` by writing the dictionary directly). -/
def Context.init (kwargs : List (String × PyVal)) : Context := ⟨kwargs⟩

/-- `Context.__setattr__(self, key, value)`:
`raise AttributeError, 'context is not writable'` — unconditionally. -/
def Context.setattr (_c : Context) (_key : String) (_value : PyVal) :
    Except PyErr Context :=
  .error (.attributeError "context is not writable")

/-- Attribute lookup on a context (instance dictionary lookup). -/
def Context.getattr (c : Context) (key : String) : Option PyVal :=
  (c.attrs.find? (fun kv => kv.1 = key)).map (·.2)

/-- C10: Every `Context` object is write-protected after construction:
assigning any attribute of an existing `Context`, for every attribute
name and value, raises `AttributeError` — so no assignment ever
produces an updated context, and every attribute of the context reads
the same after the failed assignment as before. -/
theorem C10_context_not_writable (c : Context) (key : String) (v : PyVal) :
    c.setattr key v = .error (.attributeError "context is not writable") ∧
    (∀ c' : Context, c.setattr key v ≠ .ok c') ∧
    (∀ k : String, (Context.init c.attrs).getattr k = c.getattr k) := by
  exact ⟨rfl, fun c' h => by simp [Context.setattr] at h, fun k => rfl⟩

/-! ## C9: `ItemConnectionSink.glue` (`gaphas/aspect/connector.py`)

A port of the sink item is modelled by its `connectable` flag, its
`glue` projection (a function from a candidate position to the
projected position and the distance) and the identifier of the
constraint its `constraint()` factory would build. -/

/-- A `Port` as seen by the connection aspects: its object identity
`pid`, `connectable`, `glue(pos) -> (glue_pos, distance)` and a
`constraint` factory (identified by the constraint id it produces). -/
structure PortS where
  pid : Nat
  connectable : Bool
  glueF : Point → Point × ℚ
  consId : Nat

/-- `ItemConnectionSink` state: the sink item (by id), the `distance`
threshold, the sink item's `ports()` list, and the currently selected
`port` (mutated by `glue`). -/
structure SinkS where
  sitem : Nat
  distance : ℚ
  ports : List PortS
  port : Option PortS

/-- `ItemConnectionSink.__init__(self, item, distance=10)`. -/
def SinkS.init (item : Nat) (ports : List PortS) : SinkS :=
  ⟨item, 10, ports, none⟩

/-- The `for p in self.item.ports()` loop of `ItemConnectionSink.glue`,
threading the accumulator `(max_dist, glue_pos, self.port)`. -/
def sinkGlueLoop (pos : Point) :
    List PortS → ℚ × Option Point × Option PortS →
      ℚ × Option Point × Option PortS
  | [], acc => acc
  | p :: ps, (maxDist, gluePos, port) =>
    if p.connectable = false then
      sinkGlueLoop pos ps (maxDist, gluePos, port)
    else
      let gd := p.glueF pos
      if gd.2 < maxDist then
        sinkGlueLoop pos ps (gd.2, some gd.1, some p)
      else
        sinkGlueLoop pos ps (maxDist, gluePos, port)

/-- `ItemConnectionSink.glue(self, pos)` (`aspect/connector.py` lines
114-129): scans the ports, keeping the strictly closest connectable
one; returns `(glue_pos, max_dist if glue_pos else 1e4)` and the
updated sink (with `self.port` possibly reassigned). -/
def SinkS.glue (s : SinkS) (pos : Point) : (Option Point × ℚ) × SinkS :=
  let acc := sinkGlueLoop pos s.ports (s.distance, none, s.port)
  ((acc.2.1, if acc.2.1.isSome then acc.1 else 10000),
   { s with port := acc.2.2 })

theorem sinkGlueLoop_cases (pos : Point) (ps : List PortS) :
    ∀ md gp pt,
      (sinkGlueLoop pos ps (md, gp, pt) = (md, gp, pt) ∧
        ∀ p ∈ ps, p.connectable = true → md ≤ (p.glueF pos).2) ∨
      (∃ p ∈ ps, p.connectable = true ∧ (p.glueF pos).2 < md ∧
        (sinkGlueLoop pos ps (md, gp, pt)).1 = (p.glueF pos).2 ∧
        (sinkGlueLoop pos ps (md, gp, pt)).2.1 = some (p.glueF pos).1 ∧
        (sinkGlueLoop pos ps (md, gp, pt)).2.2 = some p ∧
        ∀ q ∈ ps, q.connectable = true →
          (sinkGlueLoop pos ps (md, gp, pt)).1 ≤ (q.glueF pos).2) := by
  induction ps with
  | nil => intro md gp pt; left; simp [sinkGlueLoop]
  | cons p ps ih =>
    intro md gp pt
    by_cases hc : p.connectable = false
    · have hrw : sinkGlueLoop pos (p :: ps) (md, gp, pt)
          = sinkGlueLoop pos ps (md, gp, pt) := by
        simp [sinkGlueLoop, hc]
      rcases ih md gp pt with ⟨heq, hall⟩ | ⟨q, hq, hqc, hlt, h1, h2, h3, hmin⟩
      · left
        refine ⟨by rw [hrw, heq], ?_⟩
        intro r hr hrc
        rcases List.mem_cons.mp hr with h | h
        · subst h; rw [hrc] at hc; cases hc
        · exact hall r h hrc
      · right
        refine ⟨q, List.mem_cons_of_mem _ hq, hqc, hlt, by rw [hrw]; exact h1,
          by rw [hrw]; exact h2, by rw [hrw]; exact h3, ?_⟩
        intro r hr hrc
        rcases List.mem_cons.mp hr with h | h
        · subst h; rw [hrc] at hc; cases hc
        · rw [hrw]; exact hmin r h hrc
    · have hct : p.connectable = true := by
        cases h : p.connectable
        · exact absurd h hc
        · rfl
      by_cases hd : (p.glueF pos).2 < md
      · have hrw : sinkGlueLoop pos (p :: ps) (md, gp, pt)
            = sinkGlueLoop pos ps ((p.glueF pos).2, some (p.glueF pos).1, some p) := by
          simp [sinkGlueLoop, hc, hd]
        rcases ih (p.glueF pos).2 (some (p.glueF pos).1) (some p) with
          ⟨heq, hall⟩ | ⟨q, hq, hqc, hlt, h1, h2, h3, hmin⟩
        · right
          refine ⟨p, List.mem_cons_self _ _, hct, hd, ?_, ?_, ?_, ?_⟩
          · rw [hrw, heq]
          · rw [hrw, heq]
          · rw [hrw, heq]
          · intro r hr hrc
            rw [hrw, heq]
            rcases List.mem_cons.mp hr with h | h
            · subst h; exact le_refl _
            · exact hall r h hrc
        · right
          refine ⟨q, List.mem_cons_of_mem _ hq, hqc, lt_trans hlt hd,
            by rw [hrw]; exact h1, by rw [hrw]; exact h2, by rw [hrw]; exact h3, ?_⟩
          intro r hr hrc
          rcases List.mem_cons.mp hr with h | h
          · subst h; rw [hrw, h1]; exact le_of_lt hlt
          · rw [hrw]; exact hmin r h hrc
      · have hrw : sinkGlueLoop pos (p :: ps) (md, gp, pt)
            = sinkGlueLoop pos ps (md, gp, pt) := by
          simp [sinkGlueLoop, hc, hd]
        rcases ih md gp pt with ⟨heq, hall⟩ | ⟨q, hq, hqc, hlt, h1, h2, h3, hmin⟩
        · left
          refine ⟨by rw [hrw, heq], ?_⟩
          intro r hr hrc
          rcases List.mem_cons.mp hr with h | h
          · subst h; exact le_of_not_lt hd
          · exact hall r h hrc
        · right
          refine ⟨q, List.mem_cons_of_mem _ hq, hqc, hlt, by rw [hrw]; exact h1,
            by rw [hrw]; exact h2, by rw [hrw]; exact h3, ?_⟩
          intro r hr hrc
          rcases List.mem_cons.mp hr with h | h
          · subst h
            rw [hrw, h1]
            calc (q.glueF pos).2 ≤ md := le_of_lt hlt
              _ ≤ (r.glueF pos).2 := le_of_not_lt hd
          · rw [hrw]; exact hmin r h hrc

/-- C9: `ItemConnectionSink.glue(pos)` returns a glue position exactly
when some `connectable` port projects `pos` at a distance strictly
below the sink's `distance` threshold; in that case the selected port
is connectable, of minimal distance among all connectable ports, and
the returned pair is that port's projected position and distance;
otherwise the result is `(None, 1e4)`.  The threshold defaults to 10
(`SinkS.init`). -/
theorem C9_sink_glue_spec (s : SinkS) (pos : Point) :
    (((s.glue pos).1.1.isSome = true) ↔
      ∃ p ∈ s.ports, p.connectable = true ∧ (p.glueF pos).2 < s.distance) ∧
    ((s.glue pos).1.1 = none → (s.glue pos).1 = (none, 10000)) ∧
    (∀ g, (s.glue pos).1.1 = some g →
      ∃ p ∈ s.ports, p.connectable = true ∧ (p.glueF pos).2 < s.distance ∧
        (s.glue pos).2.port = some p ∧ g = (p.glueF pos).1 ∧
        (s.glue pos).1.2 = (p.glueF pos).2 ∧
        ∀ q ∈ s.ports, q.connectable = true →
          (p.glueF pos).2 ≤ (q.glueF pos).2) := by
  rcases sinkGlueLoop_cases pos s.ports s.distance none s.port with
    ⟨heq, hall⟩ | ⟨p, hp, hpc, hlt, h1, h2, h3, hmin⟩
  · refine ⟨?_, ?_, ?_⟩
    · constructor
      · intro h
        exfalso
        simp only [SinkS.glue, heq] at h
        cases h
      · rintro ⟨p, hp, hpc, hd⟩
        exact absurd hd (not_lt.mpr (hall p hp hpc))
    · intro _
      simp [SinkS.glue, heq]
    · intro g hg
      exfalso
      simp only [SinkS.glue, heq] at hg
      cases hg
  · refine ⟨?_, ?_, ?_⟩
    · exact ⟨fun _ => ⟨p, hp, hpc, hlt⟩, fun _ => by simp [SinkS.glue, h2]⟩
    · intro h
      exfalso
      simp only [SinkS.glue, h2] at h
      cases h
    · intro g hg
      refine ⟨p, hp, hpc, hlt, ?_, ?_, ?_, ?_⟩
      · simp [SinkS.glue, h3]
      · simp only [SinkS.glue, h2, Option.isSome_some] at hg ⊢
        exact (Option.some_injective _ hg).symm
      · simp only [SinkS.glue, h2, Option.isSome_some, if_true]
        exact h1
      · intro q hq hqc
        have := hmin q hq hqc
        rw [h1] at this
        exact this

/-- Concrete run of `C9_sink_glue_spec`: a sink with the default
distance 10, one non-connectable port at distance 1 and two
connectable ports at distances 5 and 3; glue selects the distance-3
port. -/
theorem C9_sink_glue_spec_witness :
    ((SinkS.init 0
        [⟨1, false, fun _ => (⟨0, 0⟩, 1), 11⟩,
         ⟨2, true, fun _ => (⟨1, 1⟩, 5), 12⟩,
         ⟨3, true, fun _ => (⟨2, 2⟩, 3), 13⟩]).glue ⟨0, 0⟩).1.1.isSome = true :=
  (C9_sink_glue_spec _ ⟨0, 0⟩).1.mpr
    ⟨⟨3, true, fun _ => (⟨2, 2⟩, 3), 13⟩,
     List.mem_cons_of_mem _ (List.mem_cons_of_mem _ (List.mem_cons_self _ _)),
     rfl, by norm_num [SinkS.init]⟩

/-! ## C5, C6: the Connections registry and `ItemConnector`

`gaphas/connections.py` is not part of the source slice; the registry
is modelled from the spec (§4.6).  `ItemConnector` itself is embedded
from `gaphas/aspect/connector.py`. -/

/-- Observable events of the connections subsystem: solver
registration, constraint construction and disconnect callbacks. -/
inductive CEvent where
  | consRemoved (c : Nat)
  | cbFired (cb : Nat)
  | consConstructed (c : Nat)
  | consAdded (c : Nat)
deriving DecidableEq, Repr

/-- Modelled from the spec: a connection record
`(item, handle, connected, port, constraint, callback?)` of the
Connections registry, uniquely keyed by `handle` (`connections.py` is
absent from the slice).  Ports and constraints are identified by their
object ids; the callback by an id fired as a `cbFired` event. -/
structure ConnRec where
  item : Nat
  handle : Nat
  connected : Nat
  port : Nat
  constraint : Nat
  callback : Option Nat
deriving DecidableEq, Repr

/-- State of the connections subsystem: the registry records, the set
of constraints registered with the solver, handle positions (in item
coordinates) and the event trace. -/
structure ConnState where
  records : List ConnRec
  solverCons : List Nat
  handlePos : Nat → Point
  out : List CEvent

/-- Modelled from the spec: `Connections.get_connection(handle) ->
ConnectionInfo?`. -/
def getConnection (s : ConnState) (h : Nat) : Option ConnRec :=
  s.records.find? (fun r => r.handle = h)

/-- Modelled from the spec: removal of one connection record — the
record leaves the registry, its constraint is removed from the Solver,
and its callback (when present) is invoked exactly once. -/
def removeRec (s : ConnState) (r : ConnRec) : ConnState :=
  { s with
    records := s.records.filter (fun q => q.handle ≠ r.handle)
    solverCons := s.solverCons.filter (fun c => c ≠ r.constraint)
    out := s.out ++ [CEvent.consRemoved r.constraint] ++
      (match r.callback with
       | some cb => [CEvent.cbFired cb]
       | none => []) }

/-- Modelled from the spec: `Connections.disconnect_item(item,
handle=None)` — removes the connection for `handle` (or all of
`item`'s handles when `handle` is `None`); a handle with no connection
record is left alone (no error). -/
def disconnectItem (s : ConnState) (item : Nat) (h : Option Nat) : ConnState :=
  match h with
  | some hd =>
    match getConnection s hd with
    | some r => removeRec s r
    | none => s
  | none =>
    (s.records.filter (fun r => r.item = item)).foldl removeRec s

/-- Modelled from the spec: `Connections.connect_item(item, handle,
connected, port, constraint, callback?)` — when a connection already
exists for `handle` it is removed first (firing its callback); then
the new record is stored and the new constraint added to the Solver. -/
def connectItem (s : ConnState) (item handle connected port constraint : Nat)
    (cb : Option Nat) : ConnState :=
  let s :=
    match getConnection s handle with
    | some _ => disconnectItem s item (some handle)
    | none => s
  { s with
    records := ⟨item, handle, connected, port, constraint, cb⟩ :: s.records
    solverCons := constraint :: s.solverCons
    out := s.out ++ [CEvent.consAdded constraint] }

/-- `ItemConnector(item, handle, connections)` (`aspect/connector.py`):
the item and handle being connected (the registry is the ambient
`ConnState`). -/
structure ConnectorS where
  item : Nat
  handle : Nat
deriving DecidableEq, Repr

/-- `ItemConnector.allow(self, sink)`: `return True`. -/
def connectorAllow (_c : ConnectorS) (_sink : SinkS) : Bool := true

/-- `ItemConnector.glue(self, sink)`: transform the handle position
into the sink item's coordinates (`matrix_i2i(item, sink.item)`, from
the absent `item.py`, is passed in as `i2i`), glue it on the sink, and
on success move the handle to the inverse-transformed glue position.
`matrix.invert()` on a singular matrix raises in cairo, modelled as
`none`. -/
def connectorGlue (st : ConnState) (c : ConnectorS) (sink : SinkS)
    (i2i : Mat) : Option (ConnState × SinkS) :=
  let pos := i2i.transformPoint (st.handlePos c.handle)
  let res := sink.glue pos
  match res.1.1 with
  | some gluepos =>
    match i2i.inv with
    | some minv =>
      some ({ st with
              handlePos := fun h =>
                if h = c.handle then minv.transformPoint gluepos
                else st.handlePos h },
            res.2)
    | none => none
  | none => some (st, res.2)

/-- `ItemConnectionSink.constraint(self, item, handle)`:
`assert self.port` (failure modelled as `none`), then
`self.port.constraint(item, handle, self.item)` constructs the
constraint (traced as `consConstructed`). -/
def sinkConstraintF (st : ConnState) (sink : SinkS) :
    Option (ConnState × PortS) :=
  match sink.port with
  | none => none
  | some p =>
    some ({ st with out := st.out ++ [CEvent.consConstructed p.consId] }, p)

/-- `ItemConnector.connect_handle(self, sink, callback=None)`:
construct the constraint via the sink's port and register it through
`Connections.connect_item`. -/
def connectHandle (st : ConnState) (c : ConnectorS) (sink : SinkS)
    (cb : Option Nat) : Option ConnState :=
  match sinkConstraintF st sink with
  | none => none
  | some (st, p) =>
    some (connectItem st c.item c.handle sink.sitem p.pid p.consId cb)

/-- `ItemConnector.disconnect(self)`:
`self.connections.disconnect_item(self.item, self.handle)`. -/
def connectorDisconnect (st : ConnState) (c : ConnectorS) : ConnState :=
  disconnectItem st c.item (some c.handle)

/-- `ItemConnector.connect(self, sink)` (`aspect/connector.py` lines
53-71): disconnect first when the handle already has a connection,
check `allow`, glue, then `connect_handle` (which passes
`callback=None`). -/
def connectorConnect (st : ConnState) (c : ConnectorS) (sink : SinkS)
    (i2i : Mat) : Option ConnState :=
  let st :=
    match getConnection st c.handle with
    | some _ => connectorDisconnect st c
    | none => st
  if connectorAllow c sink = false then some st
  else
    match connectorGlue st c sink i2i with
    | none => none
    | some (st, sink') => connectHandle st c sink' none

/-- The glue step leaves the registry, the solver set, the trace and
the sink item unchanged (it only moves the handle / selects a port). -/
theorem connectorGlue_frame (st : ConnState) (c : ConnectorS) (sink : SinkS)
    (i2i : Mat) (st2 : ConnState) (sink' : SinkS)
    (h : connectorGlue st c sink i2i = some (st2, sink')) :
    st2.records = st.records ∧ st2.out = st.out ∧
    st2.solverCons = st.solverCons ∧ sink'.sitem = sink.sitem := by
  simp only [connectorGlue] at h
  split at h
  · split at h
    · cases h
      exact ⟨rfl, rfl, rfl, rfl⟩
    · cases h
  · cases h
    exact ⟨rfl, rfl, rfl, rfl⟩

theorem connectHandle_eq_none (st : ConnState) (c : ConnectorS) (sink : SinkS)
    (cb : Option Nat) (hp : sink.port = none) :
    connectHandle st c sink cb = none := by
  simp [connectHandle, sinkConstraintF, hp]

theorem connectHandle_eq_some (st : ConnState) (c : ConnectorS) (sink : SinkS)
    (cb : Option Nat) (p : PortS) (hp : sink.port = some p) :
    connectHandle st c sink cb =
      some (connectItem
        { st with out := st.out ++ [CEvent.consConstructed p.consId] }
        c.item c.handle sink.sitem p.pid p.consId cb) := by
  simp [connectHandle, sinkConstraintF, hp]

/-- C5: when `ItemConnector.connect` runs on a handle that already has
a connection record, the existing connection is removed first — its
constraint leaves the solver and its disconnect callback fires — and
only afterwards is the new constraint constructed and registered with
the solver: the event trace is exactly
`[consRemoved old, cbFired cb, consConstructed new, consAdded new]`,
and afterwards the handle's registry record carries the new
constraint, which is in the solver. -/
theorem C5_connect_disconnects_first (st : ConnState) (c : ConnectorS)
    (sink : SinkS) (i2i : Mat) (st' : ConnState) (r : ConnRec) (cb : Nat)
    (hr : getConnection st c.handle = some r)
    (hcb : r.callback = some cb)
    (h : connectorConnect st c sink i2i = some st') :
    ∃ newC : Nat,
      st'.out = st.out ++
        [CEvent.consRemoved r.constraint, CEvent.cbFired cb,
         CEvent.consConstructed newC, CEvent.consAdded newC] ∧
      newC ∈ st'.solverCons ∧
      (∃ r' : ConnRec, getConnection st' c.handle = some r' ∧
        r'.constraint = newC ∧ r'.item = c.item ∧ r'.connected = sink.sitem) := by
  unfold connectorConnect at h
  rw [hr] at h
  simp only [connectorAllow, Bool.true_eq_false, if_false] at h
  set st1 := connectorDisconnect st c with hst1
  have hout1 : st1.out = st.out ++
      [CEvent.consRemoved r.constraint, CEvent.cbFired cb] := by
    simp [hst1, connectorDisconnect, disconnectItem, hr, removeRec, hcb]
  have hrec1 : ∀ q ∈ st1.records, q.handle ≠ c.handle := by
    intro q hq
    have hq' : q ∈ st.records.filter (fun q => q.handle ≠ r.handle) := by
      simpa [hst1, connectorDisconnect, disconnectItem, hr, removeRec] using hq
    have hkey : r.handle = c.handle := by
      have := List.find?_some hr
      simpa using this
    have := (List.mem_filter.mp hq').2
    simpa [hkey] using this
  rcases hglue : connectorGlue st1 c sink i2i with _ | ⟨st2, sink'⟩
  · rw [hglue] at h; cases h
  rw [hglue] at h
  replace h : connectHandle st2 c sink' none = some st' := h
  obtain ⟨hrecf, houtf, hconsf, hsitf⟩ :=
    connectorGlue_frame st1 c sink i2i st2 sink' hglue
  rcases hport : sink'.port with _ | p
  · rw [connectHandle_eq_none st2 c sink' none hport] at h; cases h
  rw [connectHandle_eq_some st2 c sink' none p hport] at h
  injection h with h
  have hfind : List.find? (fun q => q.handle = c.handle) st2.records = none := by
    apply List.find?_eq_none.mpr
    intro q hq
    have hq1 : q ∈ st1.records := by
      rw [← hrecf]; exact hq
    simp [hrec1 q hq1]
  refine ⟨p.consId, ?_, ?_, ?_⟩
  · rw [← h]
    simp [connectItem, getConnection, hfind, houtf, hout1]
  · rw [← h]
    simp [connectItem, getConnection, hfind]
  · refine ⟨⟨c.item, c.handle, sink'.sitem, p.pid, p.consId, none⟩, ?_, rfl, rfl, hsitf⟩
    rw [← h]
    simp [connectItem, getConnection, hfind]

/-- A handle with no connection record disconnects to the unchanged
state (and raises nothing: `disconnect_item` is total). -/
theorem disconnectItem_noop (s : ConnState) (item hd : Nat)
    (h : getConnection s hd = none) :
    disconnectItem s item (some hd) = s := by
  simp [disconnectItem, h]

/-- C6: disconnecting a connected handle fires its callback exactly
once (the trace grows by exactly `[consRemoved, cbFired]`), removes
its record, and a second disconnect of the same handle is a no-op:
the state — trace included — is unchanged, so the callback does not
fire again, and no error is raised (`disconnect_item` is total). -/
theorem C6_disconnect_once (st : ConnState) (item hd : Nat) (r : ConnRec)
    (cb : Nat)
    (hr : getConnection st hd = some r)
    (hcb : r.callback = some cb) :
    (disconnectItem st item (some hd)).out
        = st.out ++ [CEvent.consRemoved r.constraint, CEvent.cbFired cb] ∧
    getConnection (disconnectItem st item (some hd)) hd = none ∧
    disconnectItem (disconnectItem st item (some hd)) item (some hd)
        = disconnectItem st item (some hd) := by
  have hkey : r.handle = hd := by
    have := List.find?_some hr
    simpa using this
  have hget2 : getConnection (disconnectItem st item (some hd)) hd = none := by
    unfold getConnection
    simp only [disconnectItem, hr, removeRec]
    apply List.find?_eq_none.mpr
    intro q hq
    have := (List.mem_filter.mp hq).2
    simpa [hkey] using this
  exact ⟨by simp [disconnectItem, hr, removeRec, hcb],
         hget2, disconnectItem_noop _ item hd hget2⟩

/-- Concrete input for `C5_connect_disconnects_first`: handle 5 of
item 1 is connected with constraint 100 and callback 42; reconnecting
it to a sink with one connectable port (constraint 200). -/
def wSt : ConnState :=
  ⟨[⟨1, 5, 2, 7, 100, some 42⟩], [100], fun _ => ⟨0, 0⟩, []⟩

/-- The sink used by the C5/C6 witnesses. -/
def wSink : SinkS :=
  SinkS.init 2 [⟨8, true, fun _ => (⟨1, 1⟩, 1), 200⟩]

/-- Witness for C5: running the connect on the concrete state. -/
theorem C5_connect_disconnects_first_witness :
    ∃ st' : ConnState,
      connectorConnect wSt ⟨1, 5⟩ wSink Mat.idMat = some st' ∧
      ∃ newC : Nat,
        st'.out = wSt.out ++
          [CEvent.consRemoved 100, CEvent.cbFired 42,
           CEvent.consConstructed newC, CEvent.consAdded newC] ∧
        newC ∈ st'.solverCons := by
  have hsome : (connectorConnect wSt ⟨1, 5⟩ wSink Mat.idMat).isSome = true := by
    norm_num [connectorConnect, connectorDisconnect, disconnectItem,
      getConnection, removeRec, connectorGlue, SinkS.glue, sinkGlueLoop, wSt,
      wSink, SinkS.init, Mat.inv, Mat.det, Mat.idMat, Mat.transformPoint,
      connectHandle, sinkConstraintF, connectItem, connectorAllow]
  refine ⟨(connectorConnect wSt ⟨1, 5⟩ wSink Mat.idMat).get hsome,
    (Option.some_get hsome).symm, ?_⟩
  obtain ⟨newC, h1, h2, _⟩ :=
    C5_connect_disconnects_first wSt ⟨1, 5⟩ wSink Mat.idMat _
      ⟨1, 5, 2, 7, 100, some 42⟩ 42 rfl rfl (Option.some_get hsome).symm
  exact ⟨newC, h1, h2⟩

/-- Witness for C6: disconnecting handle 5 on the concrete state. -/
theorem C6_disconnect_once_witness :
    (disconnectItem wSt 1 (some 5)).out
        = wSt.out ++ [CEvent.consRemoved 100, CEvent.cbFired 42] ∧
    getConnection (disconnectItem wSt 1 (some 5)) 5 = none ∧
    disconnectItem (disconnectItem wSt 1 (some 5)) 1 (some 5)
        = disconnectItem wSt 1 (some 5) :=
  C6_disconnect_once wSt 1 5 ⟨1, 5, 2, 7, 100, some 42⟩ 42 rfl rfl

/-! ## The item tree

`gaphas/tree.py` is absent from the source slice; the ordered n-ary
tree of item identities is modelled from the spec (§3 Tree, §4.4) as a
forest of rose trees.  `Canvas` code under `src/` reads it only through
`get_parent` / `get_children` / membership, embedded below. -/

/-- Modelled from the spec: a node of the ordered n-ary item tree
(`tree.py` is absent); items are opaque identities (`Nat`). -/
inductive TNode where
  | node (id : Nat) (children : List TNode)
deriving Repr

def TNode.rootId : TNode → Nat
  | .node i _ => i

def TNode.kids : TNode → List TNode
  | .node _ cs => cs

mutual
/-- Depth-first pre-order ids of a tree. -/
def TNode.preorder : TNode → List Nat
  | .node i cs => i :: forestIds cs
/-- Depth-first pre-order ids of a forest. -/
def forestIds : List TNode → List Nat
  | [] => []
  | t :: ts => t.preorder ++ forestIds ts
end

mutual
/-- Find the subtree rooted at id `i`. -/
def TNode.findT : TNode → Nat → Option TNode
  | .node j cs, i => if j = i then some (.node j cs) else forestFind cs i
def forestFind : List TNode → Nat → Option TNode
  | [], _ => none
  | t :: ts, i =>
    match t.findT i with
    | some r => some r
    | none => forestFind ts i
end

mutual
/-- `Tree.get_parent(i)`: the id of the unique node having `i` among
its children, if any. -/
def TNode.parentIn : TNode → Nat → Option Nat
  | .node j cs, i =>
    if cs.any (fun c => c.rootId = i) then some j
    else forestParent cs i
def forestParent : List TNode → Nat → Option Nat
  | [], _ => none
  | t :: ts, i =>
    match t.parentIn i with
    | some p => some p
    | none => forestParent ts i
end

/-- `Tree.get_children(i)` (ids, in order). -/
def childrenOf (f : List TNode) (i : Nat) : List Nat :=
  match forestFind f i with
  | some t => t.kids.map TNode.rootId
  | none => []

/-- The ids of the subtree rooted at `i` (pre-order), `[]` if absent. -/
def subtreeIds (f : List TNode) (i : Nat) : List Nat :=
  match forestFind f i with
  | some t => t.preorder
  | none => []

mutual
/-- `Tree.get_ancestors(i)`: proper ancestors of `i`, nearest first. -/
def TNode.ancIn : TNode → Nat → Option (List Nat)
  | .node j cs, i =>
    if j = i then some []
    else (forestAnc cs i).map (fun l => l ++ [j])
def forestAnc : List TNode → Nat → Option (List Nat)
  | [], _ => none
  | t :: ts, i =>
    match t.ancIn i with
    | some l => some l
    | none => forestAnc ts i
end

def ancestorsOf (f : List TNode) (i : Nat) : List Nat :=
  (forestAnc f i).getD []

mutual
/-- All subtrees of a tree (itself included), pre-order. -/
def TNode.subtrees : TNode → List TNode
  | .node j cs => .node j cs :: forestSubtrees cs
def forestSubtrees : List TNode → List TNode
  | [] => []
  | t :: ts => t.subtrees ++ forestSubtrees ts
end

/-! ### Forest lemmas -/

theorem TNode.preorder_node (j : Nat) (cs : List TNode) :
    (TNode.node j cs).preorder = j :: forestIds cs := rfl

theorem TNode.self_mem_preorder (t : TNode) : t.rootId ∈ t.preorder := by
  cases t with
  | node j cs => simp [TNode.preorder, TNode.rootId]

mutual
theorem TNode.rootId_map_subtrees (t : TNode) :
    t.subtrees.map TNode.rootId = t.preorder := by
  cases t with
  | node j cs =>
    simp only [TNode.subtrees, TNode.preorder, List.map_cons, TNode.rootId]
    rw [rootId_map_forestSubtrees cs]
theorem rootId_map_forestSubtrees (f : List TNode) :
    (forestSubtrees f).map TNode.rootId = forestIds f := by
  cases f with
  | nil => rfl
  | cons t ts =>
    simp only [forestSubtrees, forestIds, List.map_append]
    rw [TNode.rootId_map_subtrees t, rootId_map_forestSubtrees ts]
end

theorem TNode.self_mem_subtrees (t : TNode) : t ∈ t.subtrees := by
  cases t with
  | node j cs => simp [TNode.subtrees]

mutual
theorem TNode.findT_some_split (t : TNode) (i : Nat) (r : TNode)
    (h : t.findT i = some r) :
    r.rootId = i ∧ r ∈ t.subtrees ∧
    ∃ l1 l2, t.preorder = l1 ++ r.preorder ++ l2 := by
  cases t with
  | node j cs =>
    by_cases hj : j = i
    · subst hj
      simp only [TNode.findT, eq_self_iff_true, if_true, Option.some.injEq] at h
      subst h
      exact ⟨rfl, TNode.self_mem_subtrees _, [], [], by simp⟩
    · simp only [TNode.findT, hj, if_false] at h
      obtain ⟨h1, h2, l1, l2, h3⟩ := forestFind_some_split cs i r h
      refine ⟨h1, ?_, j :: l1, l2, ?_⟩
      · simp only [TNode.subtrees]
        exact List.mem_cons_of_mem _ h2
      · simp [TNode.preorder, h3]
theorem forestFind_some_split (f : List TNode) (i : Nat) (r : TNode)
    (h : forestFind f i = some r) :
    r.rootId = i ∧ r ∈ forestSubtrees f ∧
    ∃ l1 l2, forestIds f = l1 ++ r.preorder ++ l2 := by
  cases f with
  | nil => cases h
  | cons t ts =>
    simp only [forestFind] at h
    rcases ht : t.findT i with _ | r'
    · rw [ht] at h
      obtain ⟨h1, h2, l1, l2, h3⟩ := forestFind_some_split ts i r h
      refine ⟨h1, ?_, t.preorder ++ l1, l2, ?_⟩
      · simp only [forestSubtrees, List.mem_append]
        exact Or.inr h2
      · simp [forestIds, h3]
    · obtain ⟨h1, h2, l1, l2, h3⟩ := TNode.findT_some_split t i r' ht
      rw [ht] at h
      simp only [Option.some.injEq] at h
      subst h
      refine ⟨h1, ?_, l1, l2 ++ forestIds ts, ?_⟩
      · simp only [forestSubtrees, List.mem_append]
        exact Or.inl h2
      · simp [forestIds, h3]
end

mutual
theorem TNode.findT_isSome_of_mem (t : TNode) (i : Nat)
    (h : i ∈ t.preorder) : ∃ r, t.findT i = some r := by
  cases t with
  | node j cs =>
    by_cases hj : j = i
    · refine ⟨TNode.node j cs, ?_⟩
      simp [TNode.findT, hj]
    · simp only [TNode.preorder, List.mem_cons] at h
      rcases h with h | h
      · exact absurd h.symm hj
      · obtain ⟨r, hr⟩ := forestFind_isSome_of_mem cs i h
        exact ⟨r, by simp [TNode.findT, hj, hr]⟩
theorem forestFind_isSome_of_mem (f : List TNode) (i : Nat)
    (h : i ∈ forestIds f) : ∃ r, forestFind f i = some r := by
  cases f with
  | nil => cases h
  | cons t ts =>
    simp only [forestIds, List.mem_append] at h
    rcases ht : t.findT i with _ | r'
    · rcases h with h | h
      · obtain ⟨r, hr⟩ := TNode.findT_isSome_of_mem t i h
        rw [hr] at ht
        cases ht
      · obtain ⟨r, hr⟩ := forestFind_isSome_of_mem ts i h
        exact ⟨r, by simp [forestFind, ht, hr]⟩
    · exact ⟨r', by simp [forestFind, ht]⟩
end

mutual
theorem TNode.subtrees_trans (t u v : TNode)
    (hu : u ∈ t.subtrees) (hv : v ∈ u.subtrees) : v ∈ t.subtrees := by
  cases t with
  | node j cs =>
    simp only [TNode.subtrees, List.mem_cons] at hu
    rcases hu with hu | hu
    · subst hu
      exact hv
    · simp only [TNode.subtrees, List.mem_cons]
      exact Or.inr (forestSubtrees_trans cs u v hu hv)
theorem forestSubtrees_trans (f : List TNode) (u v : TNode)
    (hu : u ∈ forestSubtrees f) (hv : v ∈ u.subtrees) :
    v ∈ forestSubtrees f := by
  cases f with
  | nil => cases hu
  | cons t ts =>
    simp only [forestSubtrees, List.mem_append] at hu ⊢
    rcases hu with hu | hu
    · exact Or.inl (TNode.subtrees_trans t u v hu hv)
    · exact Or.inr (forestSubtrees_trans ts u v hu hv)
end

theorem TNode.kid_mem_subtrees (t c : TNode) (hc : c ∈ t.kids) :
    c ∈ t.subtrees := by
  cases t with
  | node j cs =>
    simp only [TNode.kids] at hc
    simp only [TNode.subtrees, List.mem_cons]
    right
    induction cs with
    | nil => cases hc
    | cons d ds ih =>
      simp only [forestSubtrees, List.mem_append]
      rcases List.mem_cons.mp hc with h | h
      · subst h
        exact Or.inl (TNode.self_mem_subtrees c)
      · exact Or.inr (ih h)

theorem mem_forestIds_of_subtrees (f : List TNode) (t : TNode)
    (h : t ∈ forestSubtrees f) : t.rootId ∈ forestIds f := by
  rw [← rootId_map_forestSubtrees]
  exact List.mem_map_of_mem _ h

/-- Under no-duplicate-ids, `forestFind` retrieves exactly the unique
subtree with the given root. -/
theorem forestFind_of_subtrees (f : List TNode) (t : TNode)
    (hnd : (forestIds f).Nodup) (h : t ∈ forestSubtrees f) :
    forestFind f t.rootId = some t := by
  have hmem : t.rootId ∈ forestIds f := mem_forestIds_of_subtrees f t h
  obtain ⟨r, hr⟩ := forestFind_isSome_of_mem f t.rootId hmem
  obtain ⟨h1, h2, _⟩ := forestFind_some_split f t.rootId r hr
  have hndmap : ((forestSubtrees f).map TNode.rootId).Nodup := by
    rw [rootId_map_forestSubtrees]
    exact hnd
  have hinj := List.inj_on_of_nodup_map hndmap
  have : r = t := hinj h2 h (by rw [h1])
  rw [hr, this]

/-- The preorder of any subtree of a well-formed forest has no
duplicate ids. -/
theorem subtree_preorder_nodup (f : List TNode) (t : TNode)
    (hnd : (forestIds f).Nodup) (h : t ∈ forestSubtrees f) :
    t.preorder.Nodup := by
  obtain ⟨_, _, l1, l2, h3⟩ :=
    forestFind_some_split f t.rootId _ (forestFind_of_subtrees f t hnd h)
  rw [h3] at hnd
  exact hnd.of_append_left.of_append_right

mutual
theorem TNode.parentIn_spec (t : TNode) (i : Nat) (p : Nat)
    (h : t.parentIn i = some p) :
    ∃ q c, q ∈ t.subtrees ∧ q.rootId = p ∧ c ∈ q.kids ∧ c.rootId = i := by
  cases t with
  | node j cs =>
    by_cases hany : cs.any (fun c => c.rootId = i)
    · simp only [TNode.parentIn, hany, if_true] at h
      cases h
      obtain ⟨c, hc, hci⟩ := List.any_eq_true.mp hany
      exact ⟨TNode.node p cs, c, TNode.self_mem_subtrees _, rfl, hc,
        by simpa using hci⟩
    · simp only [TNode.parentIn, hany, if_false] at h
      obtain ⟨q, c, hq, hqp, hc, hci⟩ := forestParent_spec cs i p h
      refine ⟨q, c, ?_, hqp, hc, hci⟩
      simp only [TNode.subtrees, List.mem_cons]
      exact Or.inr hq
theorem forestParent_spec (f : List TNode) (i : Nat) (p : Nat)
    (h : forestParent f i = some p) :
    ∃ q c, q ∈ forestSubtrees f ∧ q.rootId = p ∧ c ∈ q.kids ∧ c.rootId = i := by
  cases f with
  | nil => cases h
  | cons t ts =>
    simp only [forestParent] at h
    rcases ht : t.parentIn i with _ | p'
    · rw [ht] at h
      obtain ⟨q, c, hq, hqp, hc, hci⟩ := forestParent_spec ts i p h
      refine ⟨q, c, ?_, hqp, hc, hci⟩
      simp only [forestSubtrees, List.mem_append]
      exact Or.inr hq
    · obtain ⟨q, c, hq, hqp, hc, hci⟩ := TNode.parentIn_spec t i p' ht
      rw [ht] at h
      simp only [Option.some.injEq] at h
      subst h
      refine ⟨q, c, ?_, hqp, hc, hci⟩
      simp only [forestSubtrees, List.mem_append]
      exact Or.inl hq
end

theorem preorder_sub_forestIds (f : List TNode) (t : TNode) (ht : t ∈ f) :
    ∀ x ∈ t.preorder, x ∈ forestIds f := by
  intro x hx
  induction f with
  | nil => cases ht
  | cons u us ih =>
    simp only [forestIds, List.mem_append]
    rcases List.mem_cons.mp ht with h | h
    · subst h
      exact Or.inl hx
    · exact Or.inr (ih h)

theorem mem_forestIds_decomp (f : List TNode) (x : Nat)
    (h : x ∈ forestIds f) : ∃ t ∈ f, x ∈ t.preorder := by
  induction f with
  | nil => cases h
  | cons u us ih =>
    simp only [forestIds, List.mem_append] at h
    rcases h with h | h
    · exact ⟨u, List.mem_cons_self _ _, h⟩
    · obtain ⟨t, ht, hx⟩ := ih h
      exact ⟨t, List.mem_cons_of_mem _ ht, hx⟩

theorem forestParent_mem (f : List TNode) (i p : Nat)
    (h : forestParent f i = some p) :
    i ∈ forestIds f ∧ p ∈ forestIds f := by
  obtain ⟨q, c, hq, hqp, hc, hci⟩ := forestParent_spec f i p h
  have hcs : c ∈ forestSubtrees f :=
    forestSubtrees_trans f q c hq (TNode.kid_mem_subtrees q c hc)
  constructor
  · rw [← hci]
    exact mem_forestIds_of_subtrees f c hcs
  · rw [← hqp]
    exact mem_forestIds_of_subtrees f q hq

theorem forestParent_none_of_not_mem (f : List TNode) (i : Nat)
    (h : i ∉ forestIds f) : forestParent f i = none := by
  rcases hp : forestParent f i with _ | p
  · rfl
  · exact absurd (forestParent_mem f i p hp).1 h

theorem forestParent_ne (f : List TNode) (i p : Nat)
    (hnd : (forestIds f).Nodup) (h : forestParent f i = some p) : p ≠ i := by
  obtain ⟨q, c, hq, hqp, hc, hci⟩ := forestParent_spec f i p h
  intro hpi
  cases q with
  | node qj cs =>
    simp only [TNode.rootId] at hqp
    subst hqp
    have hqnd := subtree_preorder_nodup f _ hnd hq
    simp only [TNode.preorder] at hqnd
    have hin : i ∈ forestIds cs := by
      have := preorder_sub_forestIds cs c (by simpa [TNode.kids] using hc)
        c.rootId (TNode.self_mem_preorder c)
      rwa [hci] at this
    rw [hpi] at hqnd
    exact (List.nodup_cons.mp hqnd).1 hin

theorem subtree_mem_forest (f : List TNode) (a x : Nat)
    (h : x ∈ subtreeIds f a) : x ∈ forestIds f := by
  unfold subtreeIds at h
  rcases hf : forestFind f a with _ | t
  · rw [hf] at h; cases h
  · rw [hf] at h
    obtain ⟨_, _, l1, l2, h3⟩ := forestFind_some_split f a t hf
    rw [h3]
    simp only [List.mem_append]
    exact Or.inl (Or.inr h)

theorem self_mem_subtreeIds (f : List TNode) (i : Nat)
    (h : i ∈ forestIds f) : i ∈ subtreeIds f i := by
  obtain ⟨r, hr⟩ := forestFind_isSome_of_mem f i h
  obtain ⟨h1, _, _⟩ := forestFind_some_split f i r hr
  unfold subtreeIds
  rw [hr, ← h1]
  exact TNode.self_mem_preorder r

/-- In a well-formed forest, the subtree of an item with a parent is
contained in the parent's subtree. -/
theorem subtree_sub_parent (f : List TNode) (i p : Nat)
    (hnd : (forestIds f).Nodup) (h : forestParent f i = some p) :
    i ∈ subtreeIds f p ∧ ∀ x ∈ subtreeIds f i, x ∈ subtreeIds f p := by
  obtain ⟨q, c, hq, hqp, hc, hci⟩ := forestParent_spec f i p h
  have hcs : c ∈ forestSubtrees f :=
    forestSubtrees_trans f q c hq (TNode.kid_mem_subtrees q c hc)
  have hfp : forestFind f p = some q := by
    have := forestFind_of_subtrees f q hnd hq
    rwa [hqp] at this
  have hfc : forestFind f i = some c := by
    have := forestFind_of_subtrees f c hnd hcs
    rwa [hci] at this
  have hsubp : subtreeIds f p = q.preorder := by
    unfold subtreeIds
    rw [hfp]
  have hsubc : subtreeIds f i = c.preorder := by
    unfold subtreeIds
    rw [hfc]
  have hcq : ∀ x ∈ c.preorder, x ∈ q.preorder := by
    cases q with
    | node qj cs =>
      intro x hx
      simp only [TNode.preorder, List.mem_cons]
      exact Or.inr (preorder_sub_forestIds cs c
        (by simpa [TNode.kids] using hc) x hx)
  constructor
  · rw [hsubp]
    exact hcq i (by rw [← hci]; exact TNode.self_mem_preorder c)
  · intro x hx
    rw [hsubp]
    exact hcq x (by rwa [hsubc] at hx)

/-- In a well-formed forest, a member of the subtree of `i` is either
`i` itself or lies in the subtree of one of `i`'s children. -/
theorem subtreeIds_decomp (f : List TNode) (i x : Nat)
    (hnd : (forestIds f).Nodup) (hx : x ∈ subtreeIds f i) :
    x = i ∨ ∃ c ∈ childrenOf f i, x ∈ subtreeIds f c := by
  unfold subtreeIds at hx
  rcases hf : forestFind f i with _ | t
  · rw [hf] at hx; cases hx
  rw [hf] at hx
  obtain ⟨h1, h2, _⟩ := forestFind_some_split f i t hf
  cases t with
  | node j cs =>
    simp only [TNode.rootId] at h1
    subst h1
    simp only [TNode.preorder, List.mem_cons] at hx
    rcases hx with hx | hx
    · exact Or.inl hx
    · right
      obtain ⟨c, hcmem, hcx⟩ := mem_forestIds_decomp cs x hx
      have hcsub : c ∈ forestSubtrees f :=
        forestSubtrees_trans f _ c h2
          (TNode.kid_mem_subtrees _ c (by simpa [TNode.kids] using hcmem))
      have hfindc : forestFind f c.rootId = some c :=
        forestFind_of_subtrees f c hnd hcsub
      refine ⟨c.rootId, ?_, ?_⟩
      · unfold childrenOf
        rw [hf]
        simp only [TNode.kids]
        exact List.mem_map_of_mem _ hcmem
      · unfold subtreeIds
        rw [hfindc]
        exact hcx

/-! ## Canvas state (`gaphas/canvas.py`, class `Canvas`)

State of a `Canvas` and of the items it owns.  Item update hooks
(`pre_update` / `update`) are arbitrary client code; they are embedded
as programs over a small command language covering the canvas-facing
operations such hooks can perform (`request_update`,
`request_matrix_update`, writing `item.matrix`) plus raising an
exception.  Observable side effects (view notifications, traceback
printing, tree removals) are recorded in an event trace. -/

/-- Observable events of the update pipeline. -/
inductive Event where
  | viewMatrixUpdated (v i : Nat)
  | preUpdateCalled (i : Nat)
  | errorPreUpdate (i : Nat)
  | updateCalled (i : Nat)
  | errorUpdate (i : Nat)
  | viewNotified (v : Nat) (dirty dirtyMatrix : List Nat)
  | removedFromTree (i : Nat)
deriving DecidableEq, Repr

/-- A command an item hook (or the solver's variable callbacks) can
perform against the canvas. -/
inductive HookCmd where
  | setMatrix (i : Nat) (m : Mat)
  | requestUpdate (i : Nat)
  | requestMatrixUpdate (i : Nat)
  | raiseExc
deriving Repr

/-- The state of a `Canvas` (`gaphas/canvas.py`).  `i2c`/`c2i` are the
per-item `_matrix_i2c`/`_matrix_c2i` caches (`None` before first
computation); `canvasCons` is the `_canvas_constraints` table
(flattened to constraint ids per item); `solverMarked` the solver's
marked-constraints set; `inUpdate` the `@nonrecursive` guard flag of
`update_now`. -/
structure CanvasS where
  forest : List TNode
  matrix : Nat → Mat
  i2c : Nat → Option Mat
  c2i : Nat → Option Mat
  handles : Nat → List Point
  dirtyItems : List Nat
  dirtyMatrix : List Nat
  canvasCons : Nat → List Nat
  solverMarked : List Nat
  preHook : Nat → List HookCmd
  updHook : Nat → List HookCmd
  solveScript : List HookCmd
  views : List Nat
  inUpdate : Bool
  out : List Event

/-- Add to a Python `set` (no duplicates). -/
def addOnce (i : Nat) (l : List Nat) : List Nat :=
  if i ∈ l then l else i :: l

/-- The body of `Canvas.update_matrix` that stores the freshly
composed matrices (`item._matrix_i2c`, `item._matrix_c2i :=
invert(i2c)`), notifies registered views (`v.update_matrix(item)`) and
marks the item's canvas constraints for re-solving
(`request_resolve`).  cairo's `invert()` raises on a singular matrix;
the cache is modelled as holding `Mat.inv`'s `Option` result. -/
def setI2C (s : CanvasS) (i : Nat) (m : Mat) : CanvasS :=
  { s with
    i2c := fun j => if j = i then some m else s.i2c j
    c2i := fun j => if j = i then m.inv else s.c2i j
    out := s.out ++ s.views.map (fun v => Event.viewMatrixUpdated v i)
    solverMarked := s.solverMarked ++ s.canvasCons i }

mutual
/-- `Canvas.update_matrix(item, recursive)` (`gaphas/canvas.py` lines
526-561): discard the item from the dirty-matrix set; if the parent is
itself dirty, let the parent's update take care of the whole subtree;
otherwise compose `item.matrix` with the parent's item-to-canvas
matrix (the identity composition for roots), store it, and recurse
into the children when `recursive`.  `fuel` bounds the recursion depth
(the Python recursion terminates on the finite acyclic tree). -/
def updateMatrix : Nat → CanvasS → Nat → Bool → Option CanvasS
  | 0, _, _, _ => none
  | fuel + 1, s, i, rec =>
    -- parent = self._tree.get_parent(item); then discard item from
    -- the to-be-updated set
    match forestParent s.forest i with
    | some p =>
      if p ∈ ({ s with dirtyMatrix := s.dirtyMatrix.filter (· ≠ i)} :
          CanvasS).dirtyMatrix then
        -- Parent takes care of updating the child, including current
        updateMatrix fuel { s with dirtyMatrix := s.dirtyMatrix.filter (· ≠ i) }
          p true
      else
        match getMatrixI2C fuel
            { s with dirtyMatrix := s.dirtyMatrix.filter (· ≠ i) } p with
        | none => none
        | some (s2, pm) =>
          let s3 := setI2C s2 i (Mat.mul (s.matrix i) pm)
          if rec then updateChildrenM fuel s3 (childrenOf s.forest i)
          else some s3
    | none =>
      let s3 := setI2C { s with dirtyMatrix := s.dirtyMatrix.filter (· ≠ i) }
        i (s.matrix i)
      if rec then updateChildrenM fuel s3 (childrenOf s.forest i)
      else some s3
termination_by structural fuel _ _ _ => fuel

/-- `Canvas.get_matrix_i2c(item)` (`gaphas/canvas.py` lines 355-367):
return the cached `_matrix_i2c`, first computing it non-recursively
when the cache is `None`. -/
def getMatrixI2C : Nat → CanvasS → Nat → Option (CanvasS × Mat)
  | 0, _, _ => none
  | fuel + 1, s, p =>
    match s.i2c p with
    | some m => some (s, m)
    | none =>
      match updateMatrix fuel s p false with
      | none => none
      | some s' =>
        match s'.i2c p with
        | some m => some (s', m)
        | none => none
termination_by structural fuel _ _ => fuel

/-- The `for child in self._tree.get_children(item)` loop of
`Canvas.update_matrix`. -/
def updateChildrenM : Nat → CanvasS → List Nat → Option CanvasS
  | _, s, [] => some s
  | 0, _, _ :: _ => none
  | fuel + 1, s, c :: cs =>
    match updateMatrix fuel s c true with
    | none => none
    | some s1 => updateChildrenM fuel s1 cs
termination_by structural fuel _ _ => fuel
end

/-- `Canvas.update_matrices` (`gaphas/canvas.py` lines 500-524): drain
the dirty-matrix set, updating each popped item's subtree. -/
def updateMatrices : Nat → CanvasS → Option CanvasS
  | 0, s =>
    match s.dirtyMatrix with
    | [] => some s
    | _ :: _ => none
  | fuel + 1, s =>
    match s.dirtyMatrix with
    | [] => some s
    | i :: rest =>
      match updateMatrix fuel { s with dirtyMatrix := rest } i true with
      | none => none
      | some s1 => updateMatrices fuel s1
termination_by structural fuel _ => fuel

/-! ### Matrix consistency -/

/-- The value `get_matrix_i2c(i)` ought to have: `i.matrix` composed
with the parent's item-to-canvas matrix (just `i.matrix` for a root),
when the parent's cache is filled. -/
def expectedI2C (f : List TNode) (mx : Nat → Mat) (ic : Nat → Option Mat)
    (x : Nat) : Option Mat :=
  match forestParent f x with
  | some p => (ic p).map (fun pm => Mat.mul (mx x) pm)
  | none => some (mx x)

/-- Local matrix consistency of item `x`: its cached `_matrix_i2c`
is filled and equals `x.matrix · i2c(parent x)`. -/
def consistentAt (f : List TNode) (mx : Nat → Mat) (ic : Nat → Option Mat)
    (x : Nat) : Prop :=
  ic x = expectedI2C f mx ic x ∧ (expectedI2C f mx ic x).isSome = true

instance (f : List TNode) (mx : Nat → Mat) (ic : Nat → Option Mat) (x : Nat) :
    Decidable (consistentAt f mx ic x) :=
  inferInstanceAs (Decidable (_ ∧ _))

def consistent (s : CanvasS) (x : Nat) : Prop :=
  consistentAt s.forest s.matrix s.i2c x

/-- The claim's phrasing of matrix consistency for item `i`:
`get_matrix_i2c(i) = i.matrix · get_matrix_i2c(parent(i))`, the
identity matrix standing in when `i` has no parent. -/
def matrixClaim (s : CanvasS) (i : Nat) : Prop :=
  match forestParent s.forest i with
  | some p => ∃ pm, s.i2c p = some pm ∧
      s.i2c i = some (Mat.mul (s.matrix i) pm)
  | none => s.i2c i = some (Mat.mul (s.matrix i) Mat.idMat)

theorem expectedI2C_parent (f : List TNode) (mx : Nat → Mat)
    (ic : Nat → Option Mat) (x p : Nat) (h : forestParent f x = some p) :
    expectedI2C f mx ic x = (ic p).map (fun pm => Mat.mul (mx x) pm) := by
  unfold expectedI2C
  rw [h]

theorem expectedI2C_root (f : List TNode) (mx : Nat → Mat)
    (ic : Nat → Option Mat) (x : Nat) (h : forestParent f x = none) :
    expectedI2C f mx ic x = some (mx x) := by
  unfold expectedI2C
  rw [h]

theorem matrixClaim_of_consistent (s : CanvasS) (i : Nat)
    (h : consistent s i) : matrixClaim s i := by
  obtain ⟨h1, h2⟩ := h
  unfold matrixClaim
  rcases hp : forestParent s.forest i with _ | p
  · rw [expectedI2C_root _ _ _ _ hp] at h1
    rw [h1, Mat.mul_idMat]
  · rw [expectedI2C_parent _ _ _ _ p hp] at h1 h2
    rcases hq : s.i2c p with _ | pm
    · rw [hq] at h2
      simp at h2
    · rw [hq] at h1
      simp only [Option.map_some'] at h1
      exact ⟨pm, hq, h1⟩

theorem consistentAt_congr (f : List TNode) (mx : Nat → Mat)
    (ic ic' : Nat → Option Mat) (x : Nat) (h : ∀ y, ic' y = ic y) :
    consistentAt f mx ic' x ↔ consistentAt f mx ic x := by
  unfold consistentAt
  rcases hp : forestParent f x with _ | p
  · rw [expectedI2C_root _ _ _ _ hp, expectedI2C_root _ _ _ _ hp, h x]
  · rw [expectedI2C_parent _ _ _ _ p hp, expectedI2C_parent _ _ _ _ p hp,
      h x, h p]

/-! ### `setI2C` frame lemmas -/

theorem setI2C_forest (s : CanvasS) (i : Nat) (m : Mat) :
    (setI2C s i m).forest = s.forest := rfl

theorem setI2C_matrix (s : CanvasS) (i : Nat) (m : Mat) :
    (setI2C s i m).matrix = s.matrix := rfl

theorem setI2C_dirtyMatrix (s : CanvasS) (i : Nat) (m : Mat) :
    (setI2C s i m).dirtyMatrix = s.dirtyMatrix := rfl

theorem setI2C_i2c_self (s : CanvasS) (i : Nat) (m : Mat) :
    (setI2C s i m).i2c i = some m := by
  simp [setI2C]

theorem setI2C_i2c_other (s : CanvasS) (i : Nat) (m : Mat) (y : Nat)
    (h : y ≠ i) : (setI2C s i m).i2c y = s.i2c y := by
  simp [setI2C, h]

theorem setI2C_pointwise (s : CanvasS) (i : Nat) (m : Mat)
    (h : s.i2c i = some m) : ∀ y, (setI2C s i m).i2c y = s.i2c y := by
  intro y
  by_cases hy : y = i
  · subst hy
    rw [setI2C_i2c_self, h]
  · exact setI2C_i2c_other s i m y hy

/-- Consistency of a node untouched by the write (neither the node nor
its parent is the written node). -/
theorem consistent_setI2C_untouched (s : CanvasS) (i : Nat) (m : Mat)
    (x : Nat) (hx : x ≠ i) (hp : forestParent s.forest x ≠ some i) :
    consistent (setI2C s i m) x ↔ consistent s x := by
  unfold consistent consistentAt
  rw [setI2C_forest, setI2C_matrix]
  rcases hq : forestParent s.forest x with _ | p
  · rw [expectedI2C_root _ _ _ _ hq, expectedI2C_root _ _ _ _ hq,
      setI2C_i2c_other s i m x hx]
  · have hpi : p ≠ i := by
      intro h
      rw [h] at hq
      exact hp hq
    rw [expectedI2C_parent _ _ _ _ p hq, expectedI2C_parent _ _ _ _ p hq,
      setI2C_i2c_other s i m x hx, setI2C_i2c_other s i m p hpi]

theorem consistent_setI2C_self (s : CanvasS) (i p : Nat) (pm : Mat)
    (hp : forestParent s.forest i = some p) (hpi : p ≠ i)
    (hpm : s.i2c p = some pm) :
    consistent (setI2C s i (Mat.mul (s.matrix i) pm)) i := by
  unfold consistent consistentAt
  rw [setI2C_forest, setI2C_matrix, expectedI2C_parent _ _ _ _ p hp,
    setI2C_i2c_other _ _ _ p hpi, hpm, setI2C_i2c_self]
  exact ⟨rfl, rfl⟩

theorem consistent_setI2C_root (s : CanvasS) (i : Nat)
    (hp : forestParent s.forest i = none) :
    consistent (setI2C s i (s.matrix i)) i := by
  unfold consistent consistentAt
  rw [setI2C_forest, setI2C_matrix, expectedI2C_root _ _ _ _ hp,
    setI2C_i2c_self]
  exact ⟨rfl, rfl⟩

/-! ### The update-matrix postcondition -/

/-- Fields of `CanvasS` untouched by the matrix-update family. -/
def StaticEq (s s' : CanvasS) : Prop :=
  s'.forest = s.forest ∧ s'.matrix = s.matrix ∧ s'.handles = s.handles ∧
  s'.dirtyItems = s.dirtyItems ∧ s'.canvasCons = s.canvasCons ∧
  s'.preHook = s.preHook ∧ s'.updHook = s.updHook ∧
  s'.solveScript = s.solveScript ∧ s'.views = s.views ∧
  s'.inUpdate = s.inUpdate

theorem StaticEq.seRefl (s : CanvasS) : StaticEq s s :=
  ⟨rfl, rfl, rfl, rfl, rfl, rfl, rfl, rfl, rfl, rfl⟩

theorem StaticEq.seTrans {s s1 s2 : CanvasS} (h1 : StaticEq s s1)
    (h2 : StaticEq s1 s2) : StaticEq s s2 := by
  obtain ⟨a1, b1, c1, d1, e1, f1, g1, h1', i1, j1⟩ := h1
  obtain ⟨a2, b2, c2, d2, e2, f2, g2, h2', i2, j2⟩ := h2
  exact ⟨a2.trans a1, b2.trans b1, c2.trans c1, d2.trans d1, e2.trans e1,
    f2.trans f1, g2.trans g1, h2'.trans h1', i2.trans i1, j2.trans j1⟩

/-- Common postcondition of `update_matrix` / `get_matrix_i2c` /
the children loop: static fields preserved, dirty-matrix set only
shrinks, the trace only grows, consistency is preserved, every
rewritten cache entry is consistent afterwards, and every item whose
dirty flag was consumed has its whole subtree consistent afterwards. -/
def MPost (s s' : CanvasS) : Prop :=
  StaticEq s s' ∧
  (∀ x ∈ s'.dirtyMatrix, x ∈ s.dirtyMatrix) ∧
  (∃ l, s'.out = s.out ++ l) ∧
  (∀ x, consistent s x → consistent s' x) ∧
  (∀ x, s'.i2c x ≠ s.i2c x → consistent s' x) ∧
  (∀ a, a ∈ s.dirtyMatrix → a ∉ s'.dirtyMatrix →
    ∀ x ∈ subtreeIds s.forest a, consistent s' x)

theorem MPost.mpRefl (s : CanvasS) : MPost s s :=
  ⟨StaticEq.seRefl s, fun x hx => hx, ⟨[], by simp⟩, fun _ h => h,
   fun x hx => absurd rfl hx, fun a ha ha' => absurd ha ha'⟩

theorem MPost.mpTrans {s s1 s2 : CanvasS} (h1 : MPost s s1)
    (h2 : MPost s1 s2) : MPost s s2 := by
  obtain ⟨st1, dm1, ⟨l1, out1⟩, keep1, wr1, er1⟩ := h1
  obtain ⟨st2, dm2, ⟨l2, out2⟩, keep2, wr2, er2⟩ := h2
  refine ⟨st1.seTrans st2, fun x hx => dm1 x (dm2 x hx),
    ⟨l1 ++ l2, by rw [out2, out1, List.append_assoc]⟩,
    fun x hx => keep2 x (keep1 x hx), ?_, ?_⟩
  · intro x hx
    by_cases h : s1.i2c x = s.i2c x
    · exact wr2 x (fun hc => hx (hc.trans h))
    · exact keep2 x (wr1 x h)
  · intro a ha ha' x hx
    by_cases h : a ∈ s1.dirtyMatrix
    · exact er2 a h ha' x (by rw [st1.1]; exact hx)
    · exact keep2 x (er1 a ha h x hx)

/-! ### The master invariant of the update-matrix family -/

/-- Postcondition of `updateMatrix fuel`: `MPost`, plus — for a
recursive update — consistency of the item's whole subtree, and — for
a non-recursive update (only ever performed by `get_matrix_i2c` on a
clean, uncached item) — consistency of the item itself. -/
def MasterUM (fuel : Nat) : Prop :=
  ∀ s i rec s', (forestIds s.forest).Nodup →
    updateMatrix fuel s i rec = some s' →
    (rec = false → s.i2c i = none ∧ i ∉ s.dirtyMatrix) →
    MPost s s' ∧
    (rec = true → ∀ x ∈ subtreeIds s.forest i, consistent s' x) ∧
    (rec = false → consistent s' i)

/-- Postcondition of `getMatrixI2C fuel` on a non-dirty item: `MPost`
and the returned matrix is the (possibly freshly computed) cache. -/
def MasterGIC (fuel : Nat) : Prop :=
  ∀ s p s' pm, (forestIds s.forest).Nodup →
    getMatrixI2C fuel s p = some (s', pm) →
    p ∉ s.dirtyMatrix →
    MPost s s' ∧ s'.i2c p = some pm

/-- Postcondition of the children loop: `MPost` and each processed
child's subtree is consistent. -/
def MasterUC (fuel : Nat) : Prop :=
  ∀ s l s', (forestIds s.forest).Nodup →
    updateChildrenM fuel s l = some s' →
    MPost s s' ∧ ∀ c ∈ l, ∀ x ∈ subtreeIds s.forest c, consistent s' x

theorem mem_filter_ne (l : List Nat) (i x : Nat) :
    x ∈ l.filter (· ≠ i) ↔ x ∈ l ∧ x ≠ i := by
  simp [List.mem_filter]

theorem masterGIC_step (fuel : Nat) (hUM : MasterUM fuel) :
    MasterGIC (fuel + 1) := by
  intro s p s' pm hnd hrun hpd
  simp only [getMatrixI2C] at hrun
  split at hrun
  · -- cache hit
    next m hm =>
    simp only [Option.some.injEq, Prod.mk.injEq] at hrun
    obtain ⟨h1, h2⟩ := hrun
    subst h1
    subst h2
    exact ⟨MPost.mpRefl s, hm⟩
  · -- cache miss: compute non-recursively
    next hic =>
    rcases hum : updateMatrix fuel s p false with _ | s1
    · rw [hum] at hrun
      cases hrun
    · rw [hum] at hrun
      replace hrun : (match s1.i2c p with
          | some m => some (s1, m)
          | none => none) = some (s', pm) := hrun
      rcases hm : s1.i2c p with _ | m
      · rw [hm] at hrun
        cases hrun
      · rw [hm] at hrun
        simp only [Option.some.injEq, Prod.mk.injEq] at hrun
        obtain ⟨h1, h2⟩ := hrun
        subst h1
        subst h2
        obtain ⟨hPost, _, _⟩ :=
          hUM s p false s1 hnd hum (fun _ => ⟨hic, hpd⟩)
        exact ⟨hPost, hm⟩

theorem masterUC_step (fuel : Nat) (hUM : MasterUM fuel)
    (hUCp : MasterUC fuel) : MasterUC (fuel + 1) := by
  intro s l s' hnd hrun
  cases l with
  | nil =>
    simp only [updateChildrenM, Option.some.injEq] at hrun
    subst hrun
    exact ⟨MPost.mpRefl s, fun c hc => absurd hc (List.not_mem_nil c)⟩
  | cons c cs =>
    simp only [updateChildrenM] at hrun
    split at hrun
    · cases hrun
    · next s1 hum =>
      obtain ⟨hPost1, hsubc, _⟩ :=
        hUM s c true s1 hnd hum (fun h => Bool.noConfusion h)
      have hnd1 : (forestIds s1.forest).Nodup := by
        rw [hPost1.1.1]
        exact hnd
      obtain ⟨hPost2, hkids⟩ := hUCp s1 cs s' hnd1 hrun
      refine ⟨hPost1.mpTrans hPost2, ?_⟩
      intro c' hc' x hx
      rcases List.mem_cons.mp hc' with h | h
      · subst h
        exact hPost2.2.2.2.1 x (hsubc rfl x hx)
      · exact hkids c' h x (by rw [hPost1.1.1]; exact hx)

theorem consistent_eraseDM (s : CanvasS) (d : List Nat) (x : Nat) :
    consistent { s with dirtyMatrix := d } x ↔ consistent s x := Iff.rfl

theorem masterUM_step (fuel : Nat) (hUM : MasterUM fuel) (hG : MasterGIC fuel)
    (hUC : MasterUC fuel) : MasterUM (fuel + 1) := by
  intro s i rec s' hnd hrun hrf
  simp only [updateMatrix] at hrun
  set sE : CanvasS := { s with dirtyMatrix := s.dirtyMatrix.filter (· ≠ i) }
    with hsE
  have hstE : StaticEq s sE := ⟨rfl, rfl, rfl, rfl, rfl, rfl, rfl, rfl, rfl, rfl⟩
  have hdmE : ∀ x ∈ sE.dirtyMatrix, x ∈ s.dirtyMatrix := by
    intro x hx
    exact ((mem_filter_ne _ i x).mp hx).1
  have herase : ∀ a, a ∈ s.dirtyMatrix → a ∉ sE.dirtyMatrix → a = i := by
    intro a ha ha'
    by_contra hne
    exact ha' ((mem_filter_ne _ i a).mpr ⟨ha, hne⟩)
  rcases hp : forestParent s.forest i with _ | p
  · -- ROOT case
    rw [hp] at hrun
    replace hrun :
        (if rec = true then
          updateChildrenM fuel (setI2C sE i (s.matrix i)) (childrenOf s.forest i)
        else some (setI2C sE i (s.matrix i))) = some s' := hrun
    have hconsI : consistent (setI2C sE i (s.matrix i)) i :=
      consistent_setI2C_root sE i hp
    split at hrun
    · -- recursive: update the children too
      next hr =>
      obtain ⟨hPost3, hkids⟩ :=
        hUC (setI2C sE i (s.matrix i)) (childrenOf s.forest i) s' hnd hrun
      have hsub : ∀ x ∈ subtreeIds s.forest i, consistent s' x := by
        intro x hx
        rcases subtreeIds_decomp s.forest i x hnd hx with hxi | ⟨c, hc, hxc⟩
        · subst hxi
          exact hPost3.2.2.2.1 x hconsI
        · exact hkids c hc x hxc
      have hkeep : ∀ x, consistent s x → consistent s' x := by
        intro x hcx
        by_cases hxs : x ∈ subtreeIds s.forest i
        · exact hsub x hxs
        · by_cases hx : x = i
          · subst hx
            exact hPost3.2.2.2.1 x hconsI
          · have hpx : forestParent s.forest x ≠ some i := by
              intro hcon
              exact hxs ((subtree_sub_parent s.forest x i hnd hcon).1)
            exact hPost3.2.2.2.1 x
              ((consistent_setI2C_untouched sE i _ x hx hpx).mpr hcx)
      refine ⟨⟨(hstE.seTrans (⟨rfl, rfl, rfl, rfl, rfl, rfl, rfl, rfl, rfl,
          rfl⟩ : StaticEq sE _)).seTrans hPost3.1, ?_, ?_, hkeep, ?_, ?_⟩,
        fun _ => hsub, fun hfalse => by rw [hfalse] at hr; cases hr⟩
      · intro x hx
        exact hdmE x (hPost3.2.1 x hx)
      · obtain ⟨l3, h3⟩ := hPost3.2.2.1
        exact ⟨s.views.map (fun v => Event.viewMatrixUpdated v i) ++ l3,
          by rw [h3]; simp [setI2C]⟩
      · intro x hx
        by_cases hxi : x = i
        · subst hxi
          exact hPost3.2.2.2.1 x hconsI
        · apply hPost3.2.2.2.2.1 x
          intro hcon
          exact hx (hcon.trans (setI2C_i2c_other sE i _ x hxi))
      · intro a ha ha' x hx
        by_cases hai : a = i
        · subst hai
          exact hsub x hx
        · exact hPost3.2.2.2.2.2 a
            ((mem_filter_ne _ i a).mpr ⟨ha, hai⟩) ha' x hx
    · -- non-recursive
      next hr =>
      have hrecf : rec = false := by
        cases rec
        · rfl
        · exact absurd rfl hr
      obtain ⟨hnone, hndm⟩ := hrf hrecf
      injection hrun with hrun
      subst hrun
      have hkeep : ∀ x, consistent s x → consistent (setI2C sE i
          (s.matrix i)) x := by
        intro x hcx
        by_cases hx : x = i
        · subst hx
          exact hconsI
        · by_cases hpx : forestParent s.forest x = some i
          · exfalso
            obtain ⟨_, h2⟩ := hcx
            rw [expectedI2C_parent _ _ _ _ i hpx, hnone] at h2
            simp at h2
          · exact (consistent_setI2C_untouched sE i _ x hx hpx).mpr hcx
      refine ⟨⟨hstE.seTrans ⟨rfl, rfl, rfl, rfl, rfl, rfl, rfl, rfl, rfl, rfl⟩,
          hdmE, ⟨s.views.map (fun v => Event.viewMatrixUpdated v i),
          by simp [setI2C]⟩, hkeep, ?_, ?_⟩,
        fun htrue => Bool.noConfusion (htrue.symm.trans hrecf), fun _ => hconsI⟩
      · intro x hx
        by_cases hxi : x = i
        · subst hxi
          exact hconsI
        · exact absurd (setI2C_i2c_other sE i _ x hxi) hx
      · intro a ha ha' _ _
        exact absurd (herase a ha ha' ▸ ha) hndm
  · -- PARENT case
    rw [hp] at hrun
    replace hrun :
        (if p ∈ sE.dirtyMatrix then updateMatrix fuel sE p true
        else
          match getMatrixI2C fuel sE p with
          | none => none
          | some (s2, pm) =>
            if rec = true then
              updateChildrenM fuel (setI2C s2 i (Mat.mul (s.matrix i) pm))
                (childrenOf s.forest i)
            else some (setI2C s2 i (Mat.mul (s.matrix i) pm))) = some s' := hrun
    have hiforest : i ∈ forestIds s.forest := (forestParent_mem _ _ _ hp).1
    have hpi : p ≠ i := forestParent_ne s.forest i p hnd hp
    obtain ⟨himem, hsubset⟩ := subtree_sub_parent s.forest i p hnd hp
    split at hrun
    · -- parent is dirty: redirect
      next hmem =>
      obtain ⟨hPost1, hsubp, _⟩ := hUM sE p true s' hnd hrun (fun h => by cases h)
      have hsubp' : ∀ x ∈ subtreeIds s.forest p, consistent s' x := hsubp rfl
      refine ⟨⟨hstE.seTrans hPost1.1, ?_, hPost1.2.2.1, hPost1.2.2.2.1,
          hPost1.2.2.2.2.1, ?_⟩,
        fun _ x hx => hsubp' x (hsubset x hx), fun _ => hsubp' i himem⟩
      · intro x hx
        exact hdmE x (hPost1.2.1 x hx)
      · intro a ha ha' x hx
        by_cases hai : a = i
        · subst hai
          exact hsubp' x (hsubset x hx)
        · exact hPost1.2.2.2.2.2 a
            ((mem_filter_ne _ i a).mpr ⟨ha, hai⟩) ha' x hx
    · -- parent clean: compose with the parent's i2c
      next hmem =>
      rcases hg : getMatrixI2C fuel sE p with _ | ⟨s2, pm⟩
      · rw [hg] at hrun
        cases hrun
      rw [hg] at hrun
      replace hrun :
          (if rec = true then
            updateChildrenM fuel (setI2C s2 i (Mat.mul (s.matrix i) pm))
              (childrenOf s.forest i)
          else some (setI2C s2 i (Mat.mul (s.matrix i) pm))) = some s' := hrun
      obtain ⟨hPost2, hpm⟩ := hG sE p s2 pm hnd hg hmem
      have hf2 : s2.forest = s.forest := hPost2.1.1
      have hmx2 : s2.matrix = s.matrix := hPost2.1.2.1
      have hconsI : consistent (setI2C s2 i (Mat.mul (s.matrix i) pm)) i := by
        have h := consistent_setI2C_self s2 i p pm (by rw [hf2]; exact hp)
          hpi hpm
        rw [hmx2] at h
        exact h
      have hkeep2 : ∀ x, consistent s x → consistent s2 x :=
        fun x hcx => hPost2.2.2.2.1 x hcx
      split at hrun
      · -- recursive
        next hr =>
        have hnd3 : (forestIds (setI2C s2 i
            (Mat.mul (s.matrix i) pm)).forest).Nodup := by
          have he : (setI2C s2 i (Mat.mul (s.matrix i) pm)).forest
              = s.forest := hf2
          rw [he]
          exact hnd
        obtain ⟨hPost3, hkids⟩ :=
          hUC (setI2C s2 i (Mat.mul (s.matrix i) pm))
            (childrenOf s.forest i) s' hnd3 hrun
        have hkids' : ∀ c ∈ childrenOf s.forest i,
            ∀ x ∈ subtreeIds s.forest c, consistent s' x := by
          intro c hc x hx
          apply hkids c hc x
          have he : (setI2C s2 i (Mat.mul (s.matrix i) pm)).forest
              = s.forest := hf2
          rw [he]
          exact hx
        have hsub : ∀ x ∈ subtreeIds s.forest i, consistent s' x := by
          intro x hx
          rcases subtreeIds_decomp s.forest i x hnd hx with hxi | ⟨c, hc, hxc⟩
          · subst hxi
            exact hPost3.2.2.2.1 x hconsI
          · exact hkids' c hc x hxc
        have hkeepT : ∀ x, x ∉ subtreeIds s.forest i → consistent s2 x →
            consistent (setI2C s2 i (Mat.mul (s.matrix i) pm)) x := by
          intro x hxs hc2
          have hx : x ≠ i := by
            intro h
            subst h
            exact hxs (self_mem_subtreeIds s.forest x hiforest)
          have hpx : forestParent s2.forest x ≠ some i := by
            rw [hf2]
            intro hcon
            exact hxs ((subtree_sub_parent s.forest x i hnd hcon).1)
          exact (consistent_setI2C_untouched s2 i _ x hx hpx).mpr hc2
        have hkeep : ∀ x, consistent s x → consistent s' x := by
          intro x hcx
          by_cases hxs : x ∈ subtreeIds s.forest i
          · exact hsub x hxs
          · exact hPost3.2.2.2.1 x (hkeepT x hxs (hkeep2 x hcx))
        refine ⟨⟨((hstE.seTrans hPost2.1).seTrans
            (⟨rfl, rfl, rfl, rfl, rfl, rfl, rfl, rfl, rfl, rfl⟩ :
              StaticEq s2 _)).seTrans hPost3.1, ?_, ?_, hkeep, ?_, ?_⟩,
          fun _ => hsub, fun hfalse => by rw [hfalse] at hr; cases hr⟩
        · intro x hx
          exact hdmE x (hPost2.2.1 x (hPost3.2.1 x hx))
        · obtain ⟨l2, h2⟩ := hPost2.2.2.1
          obtain ⟨l3, h3⟩ := hPost3.2.2.1
          refine ⟨l2 ++ s2.views.map (fun v => Event.viewMatrixUpdated v i)
            ++ l3, ?_⟩
          rw [h3]
          show (setI2C s2 i (Mat.mul (s.matrix i) pm)).out ++ l3 = _
          simp [setI2C, h2]
        · intro x hx
          by_cases hxi : x = i
          · subst hxi
            exact hsub x (self_mem_subtreeIds s.forest x hiforest)
          · by_cases h2 : s2.i2c x = s.i2c x
            · apply hPost3.2.2.2.2.1 x
              intro hcon
              exact hx ((hcon.trans
                (setI2C_i2c_other s2 i _ x hxi)).trans h2)
            · have hc2 : consistent s2 x := hPost2.2.2.2.2.1 x h2
              by_cases hxs : x ∈ subtreeIds s.forest i
              · exact hsub x hxs
              · exact hPost3.2.2.2.1 x (hkeepT x hxs hc2)
        · intro a ha ha' x hx
          by_cases hai : a = i
          · subst hai
            exact hsub x hx
          · have haE : a ∈ sE.dirtyMatrix :=
              (mem_filter_ne _ i a).mpr ⟨ha, hai⟩
            by_cases ha2 : a ∈ s2.dirtyMatrix
            · apply hPost3.2.2.2.2.2 a ha2 ha' x
              have he : (setI2C s2 i (Mat.mul (s.matrix i) pm)).forest
                  = s.forest := hf2
              rw [he]
              exact hx
            · have hc2 := hPost2.2.2.2.2.2 a haE ha2 x hx
              by_cases hxs : x ∈ subtreeIds s.forest i
              · exact hsub x hxs
              · exact hPost3.2.2.2.1 x (hkeepT x hxs hc2)
      · -- non-recursive
        next hr =>
        have hrecf : rec = false := by
          cases rec
          · rfl
          · exact absurd rfl hr
        obtain ⟨hnone, hndm⟩ := hrf hrecf
        injection hrun with hrun
        subst hrun
        have hwkF : ∀ x, consistent s2 x →
            consistent (setI2C s2 i (Mat.mul (s.matrix i) pm)) x := by
          intro x hc2
          by_cases hx : x = i
          · subst hx
            exact hconsI
          · by_cases hpx : forestParent s2.forest x = some i
            · rcases h2i : s2.i2c i with _ | v
              · exfalso
                obtain ⟨_, h2⟩ := hc2
                rw [expectedI2C_parent _ _ _ _ i hpx, h2i] at h2
                simp at h2
              · have hwi : s2.i2c i ≠ sE.i2c i := by
                  rw [h2i]
                  show some v ≠ s.i2c i
                  rw [hnone]
                  exact Option.some_ne_none v
                have hci2 : consistent s2 i := hPost2.2.2.2.2.1 i hwi
                obtain ⟨d1, _⟩ := hci2
                rw [expectedI2C_parent s2.forest s2.matrix s2.i2c i p
                  (by rw [hf2]; exact hp), hpm] at d1
                simp only [Option.map_some'] at d1
                rw [hmx2] at d1
                have hpw := setI2C_pointwise s2 i (Mat.mul (s.matrix i) pm) d1
                exact (consistentAt_congr _ _ _ _ x hpw).mpr hc2
            · exact (consistent_setI2C_untouched s2 i _ x hx hpx).mpr hc2
        refine ⟨⟨(hstE.seTrans hPost2.1).seTrans
            (⟨rfl, rfl, rfl, rfl, rfl, rfl, rfl, rfl, rfl, rfl⟩ :
              StaticEq s2 _), ?_, ?_, fun x hcx => hwkF x (hkeep2 x hcx),
            ?_, ?_⟩,
          fun htrue => Bool.noConfusion (htrue.symm.trans hrecf), fun _ => hconsI⟩
        · intro x hx
          exact hdmE x (hPost2.2.1 x hx)
        · obtain ⟨l2, h2⟩ := hPost2.2.2.1
          exact ⟨l2 ++ s2.views.map (fun v => Event.viewMatrixUpdated v i),
            by simp [setI2C, h2]⟩
        · intro x hx
          by_cases hxi : x = i
          · subst hxi
            exact hconsI
          · by_cases h2 : s2.i2c x = s.i2c x
            · exact absurd ((setI2C_i2c_other s2 i _ x hxi).trans h2) hx
            · exact hwkF x (hPost2.2.2.2.2.1 x h2)
        · intro a ha ha' x hx
          by_cases hai : a = i
          · subst hai
            exact absurd ha hndm
          · have haE : a ∈ sE.dirtyMatrix :=
              (mem_filter_ne _ i a).mpr ⟨ha, hai⟩
            exact hwkF x (hPost2.2.2.2.2.2 a haE ha' x hx)

instance (s : CanvasS) (x : Nat) : Decidable (consistent s x) :=
  inferInstanceAs (Decidable (consistentAt _ _ _ _))

theorem master_all : ∀ fuel, MasterUM fuel ∧ MasterGIC fuel ∧ MasterUC fuel := by
  intro fuel
  induction fuel with
  | zero =>
    refine ⟨?_, ?_, ?_⟩
    · intro s i rec s' _ hrun _
      exact Option.noConfusion hrun
    · intro s p s' pm _ hrun _
      exact Option.noConfusion hrun
    · intro s l s' _ hrun
      cases l with
      | nil =>
        have h : s = s' := Option.some.inj hrun
        subst h
        exact ⟨MPost.mpRefl s, fun c hc => absurd hc (List.not_mem_nil c)⟩
      | cons c cs =>
        exact Option.noConfusion hrun
  | succ n ih =>
    exact ⟨masterUM_step n ih.1 ih.2.1 ih.2.2, masterGIC_step n ih.1,
      masterUC_step n ih.1 ih.2.2⟩

/-- The hypothesis behind the amended claim C1: every item whose
cached matrix is stale (or not yet computed) is covered by the
dirty-matrix set — it lies in the subtree of some item scheduled for
a matrix update.  The dirty-marking operations maintain this: `add`
and `request_update`/`request_matrix_update` mark the touched item,
and `update_matrix` recomputes whole subtrees.  `Canvas.reparent`
(`gaphas/canvas.py` lines 241-245) does NOT: it moves an item without
marking anything dirty, silently invalidating the moved item's cached
matrix — see `C1_counterexample`.  Hence the consistency claim holds
after a matrix update from dirty-covered states only, not after
arbitrary public operations. -/
def Jinv (s : CanvasS) : Prop :=
  ∀ x ∈ forestIds s.forest, ¬ consistent s x →
    ∃ a ∈ s.dirtyMatrix, x ∈ subtreeIds s.forest a

instance (s : CanvasS) : Decidable (Jinv s) :=
  inferInstanceAs (Decidable (∀ x ∈ forestIds s.forest, _))

theorem updateMatrices_drain : ∀ fuel (s s' : CanvasS),
    (forestIds s.forest).Nodup → Jinv s →
    updateMatrices fuel s = some s' →
    StaticEq s s' ∧ s'.dirtyMatrix = [] ∧ Jinv s' := by
  intro fuel
  induction fuel with
  | zero =>
    intro s s' hnd hJ hrun
    simp only [updateMatrices] at hrun
    rcases hdm : s.dirtyMatrix with _ | ⟨i, rest⟩
    · rw [hdm] at hrun
      simp only [Option.some.injEq] at hrun
      subst hrun
      exact ⟨StaticEq.seRefl s, hdm, hJ⟩
    · rw [hdm] at hrun
      cases hrun
  | succ n ih =>
    intro s s' hnd hJ hrun
    simp only [updateMatrices] at hrun
    rcases hdm : s.dirtyMatrix with _ | ⟨i, rest⟩
    · rw [hdm] at hrun
      simp only [Option.some.injEq] at hrun
      subst hrun
      exact ⟨StaticEq.seRefl s, hdm, hJ⟩
    · rw [hdm] at hrun
      replace hrun : (match updateMatrix n { s with dirtyMatrix := rest } i
            true with
          | none => none
          | some s1 => updateMatrices n s1) = some s' := hrun
      rcases hum : updateMatrix n { s with dirtyMatrix := rest } i true
        with _ | s1
      · rw [hum] at hrun
        cases hrun
      · rw [hum] at hrun
        replace hrun : updateMatrices n s1 = some s' := hrun
        obtain ⟨hPost, hsub, _⟩ :=
          (master_all n).1 { s with dirtyMatrix := rest } i true s1 hnd hum
            (fun h => Bool.noConfusion h)
        have hfor1 : s1.forest = s.forest := hPost.1.1
        have hnd1 : (forestIds s1.forest).Nodup := by
          rw [hfor1]
          exact hnd
        have hJ1 : Jinv s1 := by
          intro x hx hncx
          have hxf : x ∈ forestIds s.forest := by
            rw [← hfor1]
            exact hx
          have hncs : ¬ consistent s x := fun hcs =>
            hncx (hPost.2.2.2.1 x hcs)
          obtain ⟨a, ha, hxa⟩ := hJ x hxf hncs
          rw [hdm] at ha
          rcases List.mem_cons.mp ha with hai | har
          · subst hai
            exact absurd (hsub rfl x hxa) hncx
          · by_cases ha1 : a ∈ s1.dirtyMatrix
            · refine ⟨a, ha1, ?_⟩
              rw [hfor1]
              exact hxa
            · exact absurd (hPost.2.2.2.2.2 a har ha1 x hxa) hncx
        obtain ⟨hst, hdm', hJ'⟩ := ih s1 s' hnd1 hJ1 hrun
        exact ⟨(StaticEq.seTrans
          (⟨rfl, rfl, rfl, rfl, rfl, rfl, rfl, rfl, rfl, rfl⟩ :
            StaticEq s { s with dirtyMatrix := rest }) hPost.1).seTrans hst,
          hdm', hJ'⟩

/-- C1 (amended): For every item `i` of a canvas, after the matrices
are updated (`update_matrices` drains the dirty-matrix set),
`get_matrix_i2c(i)` — the stored `_matrix_i2c`, which is filled for
every item so the cached read is taken — equals `i.matrix` composed
with `get_matrix_i2c(parent(i))`, the identity matrix standing in
when `i` has no parent.  Matrices are exact rationals here, so
equality holds exactly (hence to within 1e-9).  The hypothesis `Jinv`
states that every stale item is covered by the dirty-matrix set; it
is maintained by the dirty-marking operations (`add`,
`request_update`, `request_matrix_update`, hook-made matrix edits)
but NOT by `Canvas.reparent`, which dirties nothing — so the claim's
original "after every public operation" is refuted by
`C1_counterexample` below and weakened here to dirty-covered
states. -/
theorem C1_matrix_consistency (fuel : Nat) (s s' : CanvasS)
    (hnd : (forestIds s.forest).Nodup) (hJ : Jinv s)
    (hrun : updateMatrices fuel s = some s') :
    ∀ i ∈ forestIds s'.forest, matrixClaim s' i := by
  obtain ⟨_, hdm, hJ'⟩ := updateMatrices_drain fuel s s' hnd hJ hrun
  intro i hi
  refine matrixClaim_of_consistent s' i ?_
  by_contra hnc
  obtain ⟨a, ha, _⟩ := hJ' i hi hnc
  rw [hdm] at ha
  cases ha

/-- Concrete canvas for the C1 witness: item 1 under item 0, both with
translation matrices and both matrix-dirty, caches unfilled
(scenario 2 of the spec). -/
def c1Canvas : CanvasS where
  forest := [TNode.node 0 [TNode.node 1 []]]
  matrix := fun j => if j = 0 then ⟨1, 0, 0, 1, 5, 0⟩ else ⟨1, 0, 0, 1, 0, 8⟩
  i2c := fun _ => none
  c2i := fun _ => none
  handles := fun _ => []
  dirtyItems := [0, 1]
  dirtyMatrix := [0, 1]
  canvasCons := fun _ => []
  solverMarked := []
  preHook := fun _ => []
  updHook := fun _ => []
  solveScript := []
  views := []
  inUpdate := false
  out := []

/-- Witness for C1: running `update_matrices` on the concrete canvas
satisfies the matrix-consistency claim at the child item 1. -/
theorem C1_matrix_consistency_witness :
    matrixClaim ((updateMatrices 6 c1Canvas).get (by decide)) 1 :=
  C1_matrix_consistency 6 c1Canvas _ (by decide) (by decide)
    (Option.some_get _).symm 1 (by decide)

/-! ## The update pipeline (`Canvas.update_now`) -/

/-- The dirty markings of `Canvas.request_update(item)`
(`gaphas/canvas.py` lines 380-405): add the item to both dirty sets
and all its ancestors to the dirty-items set.  The `self.update()`
call that follows is a no-op when issued from inside `update_now`
(non-reentrancy guard), which is the only place hooks run. -/
def requestUpdateSets (s : CanvasS) (i : Nat) : CanvasS :=
  { s with
    dirtyItems := (i :: ancestorsOf s.forest i).foldl
      (fun l a => addOnce a l) s.dirtyItems
    dirtyMatrix := addOnce i s.dirtyMatrix }

/-- One canvas-facing command of an item hook. -/
def runCmd (s : CanvasS) : HookCmd → CanvasS
  | .setMatrix i m =>
    { s with matrix := fun j => if j = i then m else s.matrix j }
  | .requestUpdate i => requestUpdateSets s i
  | .requestMatrixUpdate i =>
    { s with dirtyMatrix := addOnce i s.dirtyMatrix }
  | .raiseExc => s

/-- Run a hook program; the boolean reports whether it raised. -/
def runHook : CanvasS → List HookCmd → CanvasS × Bool
  | s, [] => (s, false)
  | s, HookCmd.raiseExc :: _ => (s, true)
  | s, c :: cs => runHook (runCmd s c) cs

/-- Modelled from the spec: `solver.solve()` (`gaphas/solver` internals
absent) drains the marked-constraints set; solving writes variables,
whose projections may mark items dirty (`CanvasProjection` callbacks
call `item.request_update()`, `gaphas/canvas.py` lines 720-730) —
represented by the canvas's `solveScript` commands. -/
def solveStep (s : CanvasS) : CanvasS :=
  { (runHook s s.solveScript).1 with solverMarked := [] }

/-- Modelled from the spec: `Sorter.sort(items, reverse=True)`
(`gaphas/sort.py` absent) — the given items in depth-first pre-order,
reversed; items not in the tree are omitted. -/
def sortDirty (s : CanvasS) : List Nat :=
  ((forestIds s.forest).filter (· ∈ s.dirtyItems)).reverse

/-- `Canvas._update_handles(item)` (`gaphas/canvas.py` lines 564-603):
read the first handle's position; when its x (resp. y) is nonzero,
translate `item.matrix` by it and subtract it from every handle. -/
def updateHandles (s : CanvasS) (i : Nat) : CanvasS :=
  match s.handles i with
  | [] => s
  | h0 :: _ =>
    let x := h0.x
    let y := h0.y
    let s1 : CanvasS :=
      if x ≠ 0 then
        { s with
          matrix := fun j => if j = i then (s.matrix i).translate x 0
            else s.matrix j
          handles := fun j => if j = i then
            (s.handles j).map (fun h => ⟨h.x - x, h.y⟩) else s.handles j }
      else s
    if y ≠ 0 then
      { s1 with
        matrix := fun j => if j = i then (s1.matrix i).translate 0 y
          else s1.matrix j
        handles := fun j => if j = i then
          (s1.handles j).map (fun h => ⟨h.x, h.y - y⟩) else s1.handles j }
    else s1

/-- One iteration of the `pre_update` loop of `update_now`
(`gaphas/canvas.py` lines 463-471): call the item's `pre_update` hook
inside `try/except`; an exception is printed (traced as
`errorPreUpdate`) and the loop continues. -/
def preUpdateStep (s : CanvasS) (i : Nat) : CanvasS :=
  let s1 : CanvasS := { s with out := s.out ++ [Event.preUpdateCalled i] }
  let r := runHook s1 (s1.preHook i)
  if r.2 then { r.1 with out := r.1.out ++ [Event.errorPreUpdate i] }
  else r.1

/-- The `pre_update` loop of `update_now`. -/
def runPreUpdates (s : CanvasS) (items : List Nat) : CanvasS :=
  items.foldl preUpdateStep s

/-- One iteration of the `update` loop of `update_now`
(`gaphas/canvas.py` lines 484-494), with the same per-item exception
handling. -/
def updateStep (s : CanvasS) (i : Nat) : CanvasS :=
  let s1 : CanvasS := { s with out := s.out ++ [Event.updateCalled i] }
  let r := runHook s1 (s1.updHook i)
  if r.2 then { r.1 with out := r.1.out ++ [Event.errorUpdate i] }
  else r.1

/-- The `update` loop of `update_now`. -/
def runUpdates (s : CanvasS) (items : List Nat) : CanvasS :=
  items.foldl updateStep s

/-- `Canvas._update_views(dirty_items, dirty_matrix_items)`
(`gaphas/canvas.py` lines 623-628). -/
def updateViews (s : CanvasS) (dirty dm : List Nat) : CanvasS :=
  { s with out := s.out ++ s.views.map (fun v => Event.viewNotified v dirty dm) }

/-- The tail of `update_now` after the second `update_matrices` pass
(`gaphas/canvas.py` lines 480-498): re-sort the dirty items (they may
have been marked dirty during matrix update or solving), run the
`update` hooks, then the `finally` block — notify views, clear the
dirty-items set, drop the re-entrancy guard. -/
def updateNowFinish (sM2 : CanvasS) (dm2 : List Nat) : CanvasS :=
  let sU := runUpdates sM2 (sortDirty sM2)
  let sV := updateViews sU sU.dirtyItems dm2
  { sV with dirtyItems := [], inUpdate := false }

/-- The middle of `update_now` (`gaphas/canvas.py` lines 475-478):
`solver.solve()`, then fold the newly matrix-dirty items into the
local `dirty_matrix_items` snapshot, then the second
`update_matrices` pass. -/
def updateNowAfterSolve (fuel : Nat) (sM1 : CanvasS) (dmSnapshot : List Nat) :
    Option CanvasS :=
  let sS := solveStep sM1
  let dm2 := dmSnapshot ++ sS.dirtyMatrix.filter (fun x => x ∉ dmSnapshot)
  match updateMatrices fuel sS with
  | none => none
  | some sM2 => some (updateNowFinish sM2 dm2)

/-- `Canvas.update_now` (`gaphas/canvas.py` lines 445-498), staged
through the two helpers above.  The `@nonrecursive` decorator
(`gaphas/decorators.py` absent) is modelled from the spec: a boolean
flag on the canvas; on re-entry return without work and without
clearing the dirty sets.  The Cairo context of
`_obtain_cairo_context` is not modelled (the `Context` objects handed
to hooks carry it opaquely). -/
def updateNow (fuel : Nat) (s : CanvasS) : Option CanvasS :=
  if s.inUpdate then some s
  else
    let s0 : CanvasS := { s with inUpdate := true }
    -- Order the dirty items, so they are updated bottom to top
    let dirtyList := sortDirty s0
    -- dirty_items is a subset of dirty_matrix_items
    let dmSnapshot := s0.dirtyMatrix
    let sH := dmSnapshot.foldl updateHandles s0
    let sP := runPreUpdates sH dirtyList
    match updateMatrices fuel sP with
    | none => none
    | some sM1 => updateNowAfterSolve fuel sM1 dmSnapshot

/-- C3: a call to `update_now` while an update is already running on
the same canvas returns immediately: the state is returned unchanged,
so no item update is performed and neither dirty set is cleared or
otherwise modified. -/
theorem C3_nonreentrant_noop (fuel : Nat) (s : CanvasS)
    (h : s.inUpdate = true) : updateNow fuel s = some s := by
  simp [updateNow, h]

/-- Witness for C3: re-entrant call on a canvas with non-empty dirty
sets returns it unchanged. -/
theorem C3_nonreentrant_noop_witness :
    updateNow 3 { c1Canvas with inUpdate := true }
      = some { c1Canvas with inUpdate := true } :=
  C3_nonreentrant_noop 3 { c1Canvas with inUpdate := true } rfl

/-! ### Frame lemmas for the pipeline phases -/

/-- Fields every pipeline phase leaves alone, plus monotone growth of
the dirty-items set and of the trace. -/
def PFrame (s s' : CanvasS) : Prop :=
  s'.forest = s.forest ∧ (∀ x ∈ s.dirtyItems, x ∈ s'.dirtyItems) ∧
  (∃ l, s'.out = s.out ++ l) ∧ s'.views = s.views ∧
  s'.preHook = s.preHook ∧ s'.updHook = s.updHook ∧
  s'.solveScript = s.solveScript ∧ s'.inUpdate = s.inUpdate

theorem PFrame.pfRefl (s : CanvasS) : PFrame s s :=
  ⟨rfl, fun _ h => h, ⟨[], by simp⟩, rfl, rfl, rfl, rfl, rfl⟩

theorem PFrame.pfTrans {s s1 s2 : CanvasS} (h1 : PFrame s s1)
    (h2 : PFrame s1 s2) : PFrame s s2 := by
  obtain ⟨a1, b1, ⟨l1, c1⟩, d1, e1, f1, g1, i1⟩ := h1
  obtain ⟨a2, b2, ⟨l2, c2⟩, d2, e2, f2, g2, i2⟩ := h2
  exact ⟨a2.trans a1, fun x hx => b2 x (b1 x hx),
    ⟨l1 ++ l2, by rw [c2, c1, List.append_assoc]⟩, d2.trans d1,
    e2.trans e1, f2.trans f1, g2.trans g1, i2.trans i1⟩

theorem updateHandles_frame (s : CanvasS) (i : Nat) :
    PFrame s (updateHandles s i) ∧
    (updateHandles s i).dirtyItems = s.dirtyItems ∧
    (updateHandles s i).dirtyMatrix = s.dirtyMatrix ∧
    (updateHandles s i).out = s.out := by
  unfold updateHandles
  rcases s.handles i with _ | ⟨h0, rest⟩
  · exact ⟨PFrame.pfRefl s, rfl, rfl, rfl⟩
  · dsimp only
    split <;> split <;>
      exact ⟨⟨rfl, fun _ h => h, ⟨[], by simp⟩, rfl, rfl, rfl, rfl, rfl⟩,
        rfl, rfl, rfl⟩

theorem updateHandles_foldl_frame (l : List Nat) (s : CanvasS) :
    PFrame s (l.foldl updateHandles s) ∧
    (l.foldl updateHandles s).dirtyItems = s.dirtyItems ∧
    (l.foldl updateHandles s).dirtyMatrix = s.dirtyMatrix ∧
    (l.foldl updateHandles s).out = s.out := by
  induction l generalizing s with
  | nil => exact ⟨PFrame.pfRefl s, rfl, rfl, rfl⟩
  | cons i rest ih =>
    rw [List.foldl_cons]
    obtain ⟨f1, d1, m1, o1⟩ := updateHandles_frame s i
    obtain ⟨f2, d2, m2, o2⟩ := ih (updateHandles s i)
    exact ⟨f1.pfTrans f2, d2.trans d1, m2.trans m1, o2.trans o1⟩

theorem mem_addOnce (a x : Nat) (l : List Nat) (h : x ∈ l) :
    x ∈ addOnce a l := by
  unfold addOnce
  split
  · exact h
  · exact List.mem_cons_of_mem a h

theorem mem_foldl_addOnce (xs : List Nat) (l : List Nat) (x : Nat)
    (h : x ∈ l) : x ∈ xs.foldl (fun l a => addOnce a l) l := by
  induction xs generalizing l with
  | nil => exact h
  | cons a rest ih => exact ih (addOnce a l) (mem_addOnce a x l h)

theorem runCmd_frame (s : CanvasS) (c : HookCmd) : PFrame s (runCmd s c) := by
  cases c with
  | setMatrix i m =>
    exact ⟨rfl, fun _ h => h, ⟨[], by simp [runCmd]⟩, rfl, rfl, rfl, rfl, rfl⟩
  | requestUpdate i =>
    refine ⟨rfl, ?_, ⟨[], by simp [runCmd, requestUpdateSets]⟩, rfl, rfl,
      rfl, rfl, rfl⟩
    intro x hx
    exact mem_foldl_addOnce _ _ x hx
  | requestMatrixUpdate i =>
    exact ⟨rfl, fun _ h => h, ⟨[], by simp [runCmd]⟩, rfl, rfl, rfl, rfl, rfl⟩
  | raiseExc =>
    exact ⟨rfl, fun _ h => h, ⟨[], by simp [runCmd]⟩, rfl, rfl, rfl, rfl, rfl⟩

theorem runCmd_out (s : CanvasS) (c : HookCmd) : (runCmd s c).out = s.out := by
  cases c <;> rfl

theorem runHook_frame (prog : List HookCmd) (s : CanvasS) :
    PFrame s (runHook s prog).1 ∧ (runHook s prog).1.out = s.out := by
  induction prog generalizing s with
  | nil => exact ⟨PFrame.pfRefl s, rfl⟩
  | cons c cs ih =>
    cases c with
    | raiseExc => exact ⟨PFrame.pfRefl s, rfl⟩
    | setMatrix i m =>
      obtain ⟨hf, ho⟩ := ih (runCmd s (.setMatrix i m))
      exact ⟨(runCmd_frame s _).pfTrans hf, ho.trans (runCmd_out s _)⟩
    | requestUpdate i =>
      obtain ⟨hf, ho⟩ := ih (runCmd s (.requestUpdate i))
      exact ⟨(runCmd_frame s _).pfTrans hf, ho.trans (runCmd_out s _)⟩
    | requestMatrixUpdate i =>
      obtain ⟨hf, ho⟩ := ih (runCmd s (.requestMatrixUpdate i))
      exact ⟨(runCmd_frame s _).pfTrans hf, ho.trans (runCmd_out s _)⟩

theorem solveStep_frame (s : CanvasS) : PFrame s (solveStep s) ∧
    (solveStep s).out = s.out := by
  obtain ⟨⟨a, b, c, d, e, f, g, i⟩, ho⟩ := runHook_frame s.solveScript s
  exact ⟨⟨a, b, c, d, e, f, g, i⟩, ho⟩

theorem preUpdateStep_frame (s : CanvasS) (i : Nat) :
    PFrame s (preUpdateStep s i) ∧
    Event.preUpdateCalled i ∈ (preUpdateStep s i).out := by
  unfold preUpdateStep
  set s1 : CanvasS := { s with out := s.out ++ [Event.preUpdateCalled i] }
    with hs1
  have hstep : PFrame s s1 :=
    ⟨rfl, fun _ h => h, ⟨[Event.preUpdateCalled i], rfl⟩, rfl, rfl, rfl,
      rfl, rfl⟩
  obtain ⟨hf, ho⟩ := runHook_frame (s1.preHook i) s1
  have hmem1 : Event.preUpdateCalled i ∈ s1.out := by
    simp [hs1]
  dsimp only
  split
  · refine ⟨hstep.pfTrans (hf.pfTrans ⟨rfl, fun _ h => h,
      ⟨[Event.errorPreUpdate i], rfl⟩, rfl, rfl, rfl, rfl, rfl⟩), ?_⟩
    show Event.preUpdateCalled i ∈ (runHook s1 (s1.preHook i)).1.out ++ _
    rw [ho]
    exact List.mem_append_left _ hmem1
  · refine ⟨hstep.pfTrans hf, ?_⟩
    rw [ho]
    exact hmem1

theorem updateStep_frame (s : CanvasS) (i : Nat) :
    PFrame s (updateStep s i) ∧
    Event.updateCalled i ∈ (updateStep s i).out := by
  unfold updateStep
  set s1 : CanvasS := { s with out := s.out ++ [Event.updateCalled i] }
    with hs1
  have hstep : PFrame s s1 :=
    ⟨rfl, fun _ h => h, ⟨[Event.updateCalled i], rfl⟩, rfl, rfl, rfl,
      rfl, rfl⟩
  obtain ⟨hf, ho⟩ := runHook_frame (s1.updHook i) s1
  have hmem1 : Event.updateCalled i ∈ s1.out := by
    simp [hs1]
  dsimp only
  split
  · refine ⟨hstep.pfTrans (hf.pfTrans ⟨rfl, fun _ h => h,
      ⟨[Event.errorUpdate i], rfl⟩, rfl, rfl, rfl, rfl, rfl⟩), ?_⟩
    show Event.updateCalled i ∈ (runHook s1 (s1.updHook i)).1.out ++ _
    rw [ho]
    exact List.mem_append_left _ hmem1
  · refine ⟨hstep.pfTrans hf, ?_⟩
    rw [ho]
    exact hmem1

theorem mem_out_of_PFrame {s s' : CanvasS} (h : PFrame s s') (e : Event)
    (he : e ∈ s.out) : e ∈ s'.out := by
  obtain ⟨_, _, ⟨l, hl⟩, _⟩ := h
  rw [hl]
  exact List.mem_append_left _ he

theorem runPreUpdates_frame (items : List Nat) (s : CanvasS) :
    PFrame s (runPreUpdates s items) ∧
    ∀ i ∈ items, Event.preUpdateCalled i ∈ (runPreUpdates s items).out := by
  induction items generalizing s with
  | nil => exact ⟨PFrame.pfRefl s, fun i hi => absurd hi (List.not_mem_nil i)⟩
  | cons i rest ih =>
    unfold runPreUpdates at ih ⊢
    rw [List.foldl_cons]
    obtain ⟨hf1, hm1⟩ := preUpdateStep_frame s i
    obtain ⟨hf2, hm2⟩ := ih (preUpdateStep s i)
    refine ⟨hf1.pfTrans hf2, ?_⟩
    intro j hj
    rcases List.mem_cons.mp hj with h | h
    · subst h
      exact mem_out_of_PFrame hf2 _ hm1
    · exact hm2 j h

theorem runUpdates_frame (items : List Nat) (s : CanvasS) :
    PFrame s (runUpdates s items) ∧
    ∀ i ∈ items, Event.updateCalled i ∈ (runUpdates s items).out := by
  induction items generalizing s with
  | nil => exact ⟨PFrame.pfRefl s, fun i hi => absurd hi (List.not_mem_nil i)⟩
  | cons i rest ih =>
    unfold runUpdates at ih ⊢
    rw [List.foldl_cons]
    obtain ⟨hf1, hm1⟩ := updateStep_frame s i
    obtain ⟨hf2, hm2⟩ := ih (updateStep s i)
    refine ⟨hf1.pfTrans hf2, ?_⟩
    intro j hj
    rcases List.mem_cons.mp hj with h | h
    · subst h
      exact mem_out_of_PFrame hf2 _ hm1
    · exact hm2 j h

/-- The drain preserves the static fields and extends the trace
(consequence of the master invariant; needs only well-formedness). -/
theorem updateMatrices_frame : ∀ fuel (s s' : CanvasS),
    (forestIds s.forest).Nodup → updateMatrices fuel s = some s' →
    StaticEq s s' ∧ (∃ l, s'.out = s.out ++ l) ∧ s'.dirtyMatrix = [] := by
  intro fuel
  induction fuel with
  | zero =>
    intro s s' hnd hrun
    simp only [updateMatrices] at hrun
    rcases hdm : s.dirtyMatrix with _ | ⟨i, rest⟩
    · rw [hdm] at hrun
      simp only [Option.some.injEq] at hrun
      subst hrun
      exact ⟨StaticEq.seRefl s, ⟨[], by simp⟩, hdm⟩
    · rw [hdm] at hrun
      cases hrun
  | succ n ih =>
    intro s s' hnd hrun
    simp only [updateMatrices] at hrun
    rcases hdm : s.dirtyMatrix with _ | ⟨i, rest⟩
    · rw [hdm] at hrun
      simp only [Option.some.injEq] at hrun
      subst hrun
      exact ⟨StaticEq.seRefl s, ⟨[], by simp⟩, hdm⟩
    · rw [hdm] at hrun
      replace hrun : (match updateMatrix n { s with dirtyMatrix := rest } i
            true with
          | none => none
          | some s1 => updateMatrices n s1) = some s' := hrun
      rcases hum : updateMatrix n { s with dirtyMatrix := rest } i true
        with _ | s1
      · rw [hum] at hrun
        cases hrun
      · rw [hum] at hrun
        replace hrun : updateMatrices n s1 = some s' := hrun
        obtain ⟨hPost, _, _⟩ :=
          (master_all n).1 { s with dirtyMatrix := rest } i true s1 hnd hum
            (fun h => Bool.noConfusion h)
        have hnd1 : (forestIds s1.forest).Nodup := by
          rw [hPost.1.1]
          exact hnd
        obtain ⟨hst, ⟨l2, hout2⟩, hdm'⟩ := ih s1 s' hnd1 hrun
        obtain ⟨l1, hout1⟩ := hPost.2.2.1
        refine ⟨(StaticEq.seTrans
          (⟨rfl, rfl, rfl, rfl, rfl, rfl, rfl, rfl, rfl, rfl⟩ :
            StaticEq s { s with dirtyMatrix := rest }) hPost.1).seTrans hst,
          ⟨l1 ++ l2, ?_⟩, hdm'⟩
        rw [hout2]
        show s1.out ++ l2 = s.out ++ (l1 ++ l2)
        rw [hout1]
        show s.out ++ l1 ++ l2 = _
        rw [List.append_assoc]

/-- `StaticEq` gives a `PFrame` (with an out-extension supplied). -/
theorem PFrame_of_StaticEq {s s' : CanvasS} (h : StaticEq s s')
    (ho : ∃ l, s'.out = s.out ++ l) : PFrame s s' := by
  obtain ⟨a, _, _, d, _, f, g, h', i, j⟩ := h
  exact ⟨a, fun x hx => by rw [d]; exact hx, ho, i, f, g, h', j⟩

theorem mem_sortDirty (s : CanvasS) (i : Nat) :
    i ∈ sortDirty s ↔ i ∈ forestIds s.forest ∧ i ∈ s.dirtyItems := by
  simp [sortDirty, List.mem_reverse, List.mem_filter]

theorem updateViews_mem (s : CanvasS) (d m : List Nat) (v : Nat)
    (hv : v ∈ s.views) :
    Event.viewNotified v d m ∈ (updateViews s d m).out := by
  unfold updateViews
  simp only [List.mem_append]
  right
  exact List.mem_map_of_mem _ hv

/-- C4: exceptions raised by item `pre_update` / `update` hooks during
`update_now` are caught per item (and printed); they do not abort the
pipeline: for every item that was dirty and in the tree when
`update_now` started, both its `pre_update` and its `update` hook are
still invoked during the cycle, and every registered view is notified
at the end.  The hooks are universally quantified via the canvas
state, raising hooks included. -/
theorem C4_hook_errors_do_not_abort (fuel : Nat) (s s' : CanvasS)
    (hnd : (forestIds s.forest).Nodup)
    (hin : s.inUpdate = false)
    (hrun : updateNow fuel s = some s') :
    (∀ i, i ∈ s.dirtyItems → i ∈ forestIds s.forest →
      Event.preUpdateCalled i ∈ s'.out ∧ Event.updateCalled i ∈ s'.out) ∧
    (∀ v ∈ s.views, ∃ d m, Event.viewNotified v d m ∈ s'.out) := by
  simp only [updateNow, hin, Bool.false_eq_true, if_false] at hrun
  set s0 : CanvasS := { s with inUpdate := true } with hs0
  set sH := (s0.dirtyMatrix).foldl updateHandles s0 with hsH
  set sP := runPreUpdates sH (sortDirty s0) with hsP
  rcases hM1 : updateMatrices fuel sP with _ | sM1
  · rw [hM1] at hrun
    cases hrun
  rw [hM1] at hrun
  replace hrun : updateNowAfterSolve fuel sM1 s0.dirtyMatrix = some s' := hrun
  simp only [updateNowAfterSolve] at hrun
  set sS := solveStep sM1 with hsS
  rcases hM2 : updateMatrices fuel sS with _ | sM2
  · rw [hM2] at hrun
    cases hrun
  rw [hM2] at hrun
  replace hrun : some (updateNowFinish sM2
      (s0.dirtyMatrix ++ sS.dirtyMatrix.filter (fun x => x ∉ s0.dirtyMatrix)))
      = some s' := hrun
  injection hrun with hrun
  set sU := runUpdates sM2 (sortDirty sM2) with hsU
  set sV := updateViews sU sU.dirtyItems
    (s0.dirtyMatrix ++ sS.dirtyMatrix.filter (fun x => x ∉ s0.dirtyMatrix))
    with hsV
  replace hrun : ({ sV with dirtyItems := [], inUpdate := false } : CanvasS)
      = s' := hrun
  -- the frame chain
  obtain ⟨f1, _, _, _⟩ := updateHandles_foldl_frame s0.dirtyMatrix s0
  obtain ⟨f2, hpre⟩ := runPreUpdates_frame (sortDirty s0) sH
  have hndP : (forestIds sP.forest).Nodup := by
    rw [f2.1, f1.1]
    exact hnd
  obtain ⟨st3, ho3, _⟩ := updateMatrices_frame fuel sP sM1 hndP hM1
  have f3 : PFrame sP sM1 := PFrame_of_StaticEq st3 ho3
  obtain ⟨f4, _⟩ := solveStep_frame sM1
  have hndS : (forestIds sS.forest).Nodup := by
    rw [f4.1, f3.1, f2.1, f1.1]
    exact hnd
  obtain ⟨st5, ho5, hdm5⟩ := updateMatrices_frame fuel sS sM2 hndS hM2
  have f5 : PFrame sS sM2 := PFrame_of_StaticEq st5 ho5
  obtain ⟨f6, hupd⟩ := runUpdates_frame (sortDirty sM2) sM2
  have f7 : PFrame sU sV :=
    ⟨rfl, fun _ h => h, ⟨_, rfl⟩, rfl, rfl, rfl, rfl, rfl⟩
  have fTot : PFrame s0 sM2 := ((f1.pfTrans f2).pfTrans f3).pfTrans (f4.pfTrans f5)
  have hout' : s'.out = sV.out := by
    rw [← hrun]
  constructor
  · intro i hi1 hi2
    have hiL1 : i ∈ sortDirty s0 := by
      rw [mem_sortDirty]
      exact ⟨hi2, hi1⟩
    constructor
    · -- pre_update was called
      have h1 : Event.preUpdateCalled i ∈ sP.out := hpre i hiL1
      have h2 : Event.preUpdateCalled i ∈ sU.out :=
        mem_out_of_PFrame f6
          _ (mem_out_of_PFrame f5 _ (mem_out_of_PFrame f4 _
            (mem_out_of_PFrame f3 _ h1)))
      rw [hout']
      exact mem_out_of_PFrame f7 _ h2
    · -- update was called
      have hiL2 : i ∈ sortDirty sM2 := by
        rw [mem_sortDirty]
        refine ⟨?_, ?_⟩
        · rw [fTot.1]
          exact hi2
        · exact fTot.2.1 i hi1
      have h1 : Event.updateCalled i ∈ sU.out := hupd i hiL2
      rw [hout']
      exact mem_out_of_PFrame f7 _ h1
  · intro v hv
    refine ⟨sU.dirtyItems,
      s0.dirtyMatrix ++ sS.dirtyMatrix.filter (fun x => x ∉ s0.dirtyMatrix),
      ?_⟩
    rw [hout']
    apply updateViews_mem
    have hviews : sU.views = s.views := by
      rw [f6.2.2.2.1, fTot.2.2.2.1]
    rw [hviews]
    exact hv

theorem runCmd_updHook (s : CanvasS) (c : HookCmd) :
    (runCmd s c).updHook = s.updHook := by
  cases c <;> rfl

/-- Witness for C4: a canvas whose only item has raising `pre_update`
and `update` hooks and one registered view — the hooks are still
called and the view notified. -/
def c4Cex : CanvasS where
  forest := [TNode.node 0 []]
  matrix := fun _ => Mat.idMat
  i2c := fun _ => none
  c2i := fun _ => none
  handles := fun _ => []
  dirtyItems := [0]
  dirtyMatrix := [0]
  canvasCons := fun _ => []
  solverMarked := []
  preHook := fun _ => [HookCmd.raiseExc]
  updHook := fun _ => [HookCmd.raiseExc]
  solveScript := []
  views := [7]
  inUpdate := false
  out := []

/-! ## C7: `Canvas.remove` removes depth-first
(`gaphas/canvas.py` lines 95-125) -/

/-- The item ids recorded as removed from the tree in an event trace,
in order. -/
def removedOf (l : List Event) : List Nat :=
  l.filterMap (fun e => match e with
    | Event.removedFromTree i => some i
    | _ => none)

mutual
/-- Delete the node with id `i` from a tree (`Tree.remove`;
`tree.py` is absent — modelled from the spec: the subtree under the
removed node goes with it.  `Canvas.remove` only ever reaches it once
all of the node's children have themselves been removed, so there the
node is a leaf). -/
def TNode.del : TNode → Nat → List TNode
  | .node j cs, i => if j = i then [] else [.node j (forestDelete cs i)]
def forestDelete : List TNode → Nat → List TNode
  | [], _ => []
  | t :: ts, i => t.del i ++ forestDelete ts i
end

/-- `Canvas._remove` (`gaphas/canvas.py` lines 95-107): detach the
item's own record — drop it from the tree, clear its canvas
constraints, notify the registered views, and discard it from both
dirty sets.  (`remove_connections_to_item` acts on the separate
connections registry of `ConnState` and is traced there.) -/
def removeBase (s : CanvasS) (i : Nat) : CanvasS :=
  { s with
    forest := forestDelete s.forest i
    canvasCons := fun j => if j = i then [] else s.canvasCons j
    dirtyItems := s.dirtyItems.filter (· ≠ i)
    dirtyMatrix := s.dirtyMatrix.filter (· ≠ i)
    out := s.out ++ [Event.removedFromTree i]
      ++ s.views.map (fun v => Event.viewNotified v [i] []) }

mutual
/-- `Canvas.remove` on a subtree snapshot (`gaphas/canvas.py` lines
109-125): recursively remove the children — in reverse order — then
`_remove` the item itself. -/
def removeTree (s : CanvasS) : TNode → CanvasS
  | .node i cs => removeBase (removeTrees s cs) i
/-- The `for child in reversed(self.get_children(item))` loop:
sibling subtrees are removed right-to-left. -/
def removeTrees (s : CanvasS) : List TNode → CanvasS
  | [] => s
  | t :: ts => removeTree (removeTrees s ts) t
end

/-- `Canvas.remove(item)`: remove the item's subtree depth-first.  An
absent item raises `KeyError` inside `Tree.remove`; the lookup
hypothesis of the theorem below guards that case. -/
def canvasRemove (s : CanvasS) (i : Nat) : CanvasS :=
  match forestFind s.forest i with
  | some t => removeTree s t
  | none => s

theorem removedOf_append (l1 l2 : List Event) :
    removedOf (l1 ++ l2) = removedOf l1 ++ removedOf l2 := by
  simp [removedOf]

theorem removedOf_viewNotes (vs d m : List Nat) :
    removedOf (vs.map (fun v => Event.viewNotified v d m)) = [] := by
  induction vs with
  | nil => rfl
  | cons v vs ih => simp [removedOf, List.filterMap_cons]

theorem removeBase_removedOf (s : CanvasS) (i : Nat) :
    removedOf (removeBase s i).out = removedOf s.out ++ [i] := by
  unfold removeBase
  dsimp only
  rw [removedOf_append, removedOf_append, removedOf_viewNotes,
    List.append_nil]
  rfl

mutual
theorem removeTree_removedOf (t : TNode) (s : CanvasS) :
    removedOf (removeTree s t).out
      = removedOf s.out ++ t.preorder.reverse := by
  cases t with
  | node i cs =>
    show removedOf (removeBase (removeTrees s cs) i).out = _
    rw [removeBase_removedOf, removeTrees_removedOf cs s]
    simp [TNode.preorder_node, List.append_assoc]
theorem removeTrees_removedOf (ts : List TNode) (s : CanvasS) :
    removedOf (removeTrees s ts).out
      = removedOf s.out ++ (forestIds ts).reverse := by
  cases ts with
  | nil => simp [removeTrees, forestIds]
  | cons t ts =>
    show removedOf (removeTree (removeTrees s ts) t).out = _
    rw [removeTree_removedOf t (removeTrees s ts),
      removeTrees_removedOf ts s]
    simp [forestIds, List.reverse_append, List.append_assoc]
end

/-- C7: `Canvas.remove(item)` removes exactly the subtree of `item`,
in reverse pre-order — each node is detached after all of its
siblings to the right and, in particular, after every one of its own
descendants (children recursed into in reverse order, deepest
first), so at every intermediate step the remaining structure is a
valid tree.  Formally: the removal trace is the reverse pre-order of
the subtree found at `item`, and in that trace every proper
descendant `x` of any node `a` of the subtree occurs strictly before
`a`. -/
theorem C7_remove_depth_first (s : CanvasS) (i : Nat) (t : TNode)
    (ht : forestFind s.forest i = some t) :
    removedOf (canvasRemove s i).out
      = removedOf s.out ++ t.preorder.reverse ∧
    ∀ a ta x, t.findT a = some ta → x ∈ ta.preorder → x ≠ a →
      ∃ l1 l2, t.preorder.reverse = l1 ++ a :: l2 ∧ x ∈ l1 := by
  constructor
  · unfold canvasRemove
    rw [ht]
    exact removeTree_removedOf t s
  · intro a ta x hfind hx hxa
    obtain ⟨hroot, _, l1, l2, hsplit⟩ := TNode.findT_some_split t a ta hfind
    cases ta with
    | node b cs =>
      have hb : b = a := hroot
      subst hb
      rw [TNode.preorder_node] at hx hsplit
      rcases List.mem_cons.mp hx with h | h
      · exact absurd h hxa
      · refine ⟨l2.reverse ++ (forestIds cs).reverse, l1.reverse, ?_, ?_⟩
        · rw [hsplit]
          simp [List.reverse_append, List.append_assoc]
        · rw [List.mem_append, List.mem_reverse, List.mem_reverse]
          exact Or.inr h

/-- Witness input for C7: a three-level tree `1 → (2 → 4, 3)`. -/
def c7Tree : TNode :=
  TNode.node 1 [TNode.node 2 [TNode.node 4 []], TNode.node 3 []]

/-- Witness canvas for C7. -/
def c7Cex : CanvasS where
  forest := [c7Tree]
  matrix := fun _ => Mat.idMat
  i2c := fun _ => none
  c2i := fun _ => none
  handles := fun _ => []
  dirtyItems := []
  dirtyMatrix := []
  canvasCons := fun _ => []
  solverMarked := []
  preHook := fun _ => []
  updHook := fun _ => []
  solveScript := []
  views := [9]
  inUpdate := false
  out := []

theorem C7_remove_depth_first_witness :
    forestFind c7Cex.forest 1 = some c7Tree ∧
    (removedOf (canvasRemove c7Cex 1).out
        = removedOf c7Cex.out ++ c7Tree.preorder.reverse ∧
      ∀ a ta x, c7Tree.findT a = some ta → x ∈ ta.preorder → x ≠ a →
        ∃ l1 l2, c7Tree.preorder.reverse = l1 ++ a :: l2 ∧ x ∈ l1) :=
  ⟨rfl, C7_remove_depth_first c7Cex 1 c7Tree rfl⟩

/-! ## The C1 counterexample: `Canvas.reparent` marks nothing dirty
(`gaphas/canvas.py` lines 241-245) -/

mutual
/-- Attach `t` as the last child of the node with id `p`
(`Tree.reparent`'s re-insertion; `tree.py` absent, modelled from the
spec's `move(node, new_parent, index?)` with the default index:
append). -/
def TNode.attach : TNode → Nat → TNode → TNode
  | .node j cs, p, t =>
    if j = p then .node j (cs ++ [t])
    else .node j (forestAttach cs p t)
def forestAttach : List TNode → Nat → TNode → List TNode
  | [], _, _ => []
  | u :: us, p, t => u.attach p t :: forestAttach us p t
end

/-- `Canvas.reparent(item, parent)` (`gaphas/canvas.py` lines
241-245): `self._tree.reparent(item, parent)` and nothing else — in
particular neither dirty set is touched and no update is requested.
The tree move itself (`tree.py` absent) is modelled from the spec:
detach the item's subtree, re-attach it under the new parent. -/
def canvasReparent (s : CanvasS) (i p : Nat) : CanvasS :=
  match forestFind s.forest i with
  | some t =>
    { s with forest := forestAttach (forestDelete s.forest i) p t }
  | none => s

/-- Item 0's matrix in the C1 counterexample: translate by (5, 0). -/
def c1rT5 : Mat := ⟨1, 0, 0, 1, 5, 0⟩

/-- Item 1's matrix in the C1 counterexample: translate by (0, 8). -/
def c1rT8 : Mat := ⟨1, 0, 0, 1, 0, 8⟩

/-- Item 2's matrix in the C1 counterexample: translate by (7, 0). -/
def c1rT7 : Mat := ⟨1, 0, 0, 1, 7, 0⟩

/-- A fully consistent, fully drained canvas (the state after any
completed matrix update): roots 0 and 2, item 1 under item 0, all
`_matrix_i2c` caches filled and exact. -/
def c1rCanvas : CanvasS where
  forest := [TNode.node 0 [TNode.node 1 []], TNode.node 2 []]
  matrix := fun j => if j = 0 then c1rT5 else if j = 1 then c1rT8 else c1rT7
  i2c := fun j =>
    if j = 0 then some c1rT5
    else if j = 1 then some (Mat.mul c1rT8 c1rT5)
    else if j = 2 then some c1rT7
    else none
  c2i := fun _ => none
  handles := fun _ => []
  dirtyItems := []
  dirtyMatrix := []
  canvasCons := fun _ => []
  solverMarked := []
  preHook := fun _ => []
  updHook := fun _ => []
  solveScript := []
  views := []
  inUpdate := false
  out := []

/-- C1 as universally stated ("after every public operation followed
by a matrix update") is false of the code: `Canvas.reparent` is a
public operation that marks nothing dirty.  Starting from a fully
consistent, drained canvas, reparenting item 1 from under item 0 to
under item 2 leaves item 1's stale cached matrix in place, the
following `update_matrices` is a no-op (the dirty-matrix set is
empty), and `get_matrix_i2c(1)` then differs from `1.matrix ·
get_matrix_i2c(parent(1))` by 2 in the x-offset — far beyond 1e-9. -/
theorem C1_counterexample :
    (∀ x ∈ forestIds c1rCanvas.forest, matrixClaim c1rCanvas x) ∧
    updateMatrices 9 (canvasReparent c1rCanvas 1 2)
      = some (canvasReparent c1rCanvas 1 2) ∧
    ¬ matrixClaim (canvasReparent c1rCanvas 1 2) 1 := by
  refine ⟨?_, rfl, ?_⟩
  · intro x hx
    replace hx : x ∈ [0, 1, 2] := hx
    simp only [List.mem_cons, List.not_mem_nil, or_false] at hx
    rcases hx with rfl | rfl | rfl
    · show c1rCanvas.i2c 0 = some (Mat.mul (c1rCanvas.matrix 0) Mat.idMat)
      simp only [Mat.mul_idMat]
      rfl
    · exact ⟨c1rT5, rfl, rfl⟩
    · show c1rCanvas.i2c 2 = some (Mat.mul (c1rCanvas.matrix 2) Mat.idMat)
      simp only [Mat.mul_idMat]
      rfl
  · intro hclaim
    replace hclaim : ∃ pm, (canvasReparent c1rCanvas 1 2).i2c 2 = some pm ∧
        (canvasReparent c1rCanvas 1 2).i2c 1
          = some (Mat.mul ((canvasReparent c1rCanvas 1 2).matrix 1) pm) :=
      hclaim
    obtain ⟨pm, h2, h1⟩ := hclaim
    replace h2 : (some c1rT7 : Option Mat) = some pm := h2
    injection h2 with h2
    subst h2
    replace h1 : (some (Mat.mul c1rT8 c1rT5) : Option Mat)
        = some (Mat.mul c1rT8 c1rT7) := h1
    injection h1 with h1
    have hx0 := congrArg Mat.x0 h1
    simp only [Mat.mul, c1rT5, c1rT7, c1rT8] at hx0
    norm_num at hx0

theorem C4_hook_errors_do_not_abort_witness :
    (∀ i, i ∈ c4Cex.dirtyItems → i ∈ forestIds c4Cex.forest →
      Event.preUpdateCalled i ∈ ((updateNow 6 c4Cex).get (by decide)).out ∧
      Event.updateCalled i ∈ ((updateNow 6 c4Cex).get (by decide)).out) ∧
    (∀ v ∈ c4Cex.views, ∃ d m,
      Event.viewNotified v d m ∈ ((updateNow 6 c4Cex).get (by decide)).out) :=
  C4_hook_errors_do_not_abort 6 c4Cex _ (by decide) rfl
    (Option.some_get _).symm

/-! ## C8: `_update_handles` normalizes the first handle to (0, 0)
(`gaphas/canvas.py` lines 564-603) -/

theorem Mat.idMat_mul (m : Mat) : Mat.mul Mat.idMat m = m := by
  cases m
  simp [Mat.mul, Mat.idMat]

theorem Mat.translate_zero (m : Mat) : m.translate 0 0 = m :=
  Mat.idMat_mul m

/-- The two `if` branches of `_update_handles` collapse to one
uniform description: the matrix is translated by the old first
handle's position (translating by a zero component is the identity)
and that position is subtracted from every handle. -/
theorem updateHandles_eq (s : CanvasS) (i : Nat) (h0 : Point)
    (rest : List Point) (hh : s.handles i = h0 :: rest) :
    (updateHandles s i).matrix i
        = ((s.matrix i).translate h0.x 0).translate 0 h0.y ∧
    (updateHandles s i).handles i
        = (s.handles i).map (fun h => ⟨h.x - h0.x, h.y - h0.y⟩) := by
  unfold updateHandles
  rw [hh]
  dsimp only
  by_cases hx : h0.x = 0 <;> by_cases hy : h0.y = 0 <;>
    constructor <;>
    simp [hx, hy, hh, Mat.translate_zero, List.map_map, Function.comp,
      sub_zero, Point.ext_iff]

/-- C8: for every item with at least one handle, `_update_handles`
moves the first handle to `(0, 0)`: the old first-handle offset is
absorbed into `item.matrix` (translated by `(x, 0)` then `(0, y)`)
and subtracted from every handle, so that under any
parent/item-to-canvas matrix every handle's canvas-coordinate
position is unchanged by the normalization. -/
theorem C8_handle_normalization (s : CanvasS) (i : Nat)
    (hne : s.handles i ≠ []) :
    ∃ h0 rest, s.handles i = h0 :: rest ∧
      ((updateHandles s i).handles i).head? = some ⟨0, 0⟩ ∧
      (updateHandles s i).matrix i
        = ((s.matrix i).translate h0.x 0).translate 0 h0.y ∧
      (updateHandles s i).handles i
        = (s.handles i).map (fun h => ⟨h.x - h0.x, h.y - h0.y⟩) ∧
      ∀ (pm : Mat), ∀ h ∈ s.handles i,
        (Mat.mul ((updateHandles s i).matrix i) pm).transformPoint
            ⟨h.x - h0.x, h.y - h0.y⟩
          = (Mat.mul (s.matrix i) pm).transformPoint h := by
  obtain ⟨h0, rest, hh⟩ : ∃ h0 rest, s.handles i = h0 :: rest := by
    cases hcase : s.handles i with
    | nil => exact absurd hcase hne
    | cons a l => exact ⟨a, l, rfl⟩
  obtain ⟨hm, hhd⟩ := updateHandles_eq s i h0 rest hh
  refine ⟨h0, rest, hh, ?_, hm, hhd, ?_⟩
  · rw [hhd, hh]
    show some (⟨h0.x - h0.x, h0.y - h0.y⟩ : Point) = some ⟨0, 0⟩
    simp
  · intro pm h _
    rw [hm, Mat.transformPoint_mul, Mat.transformPoint_mul,
      Mat.transformPoint_translate, Mat.transformPoint_translate]
    congr 1
    congr 1
    ext <;> dsimp <;> ring

/-- Witness canvas for C8: one item with two handles, the first away
from the origin. -/
def c8Cex : CanvasS where
  forest := [TNode.node 0 []]
  matrix := fun _ => Mat.idMat
  i2c := fun _ => none
  c2i := fun _ => none
  handles := fun _ => [⟨1, 2⟩, ⟨4, 6⟩]
  dirtyItems := []
  dirtyMatrix := []
  canvasCons := fun _ => []
  solverMarked := []
  preHook := fun _ => []
  updHook := fun _ => []
  solveScript := []
  views := []
  inUpdate := false
  out := []

theorem C8_handle_normalization_witness :
    c8Cex.handles 0 ≠ [] ∧
    (∃ h0 rest, c8Cex.handles 0 = h0 :: rest ∧
      ((updateHandles c8Cex 0).handles 0).head? = some ⟨0, 0⟩ ∧
      (updateHandles c8Cex 0).matrix 0
        = ((c8Cex.matrix 0).translate h0.x 0).translate 0 h0.y ∧
      (updateHandles c8Cex 0).handles 0
        = (c8Cex.handles 0).map (fun h => ⟨h.x - h0.x, h.y - h0.y⟩) ∧
      ∀ (pm : Mat), ∀ h ∈ c8Cex.handles 0,
        (Mat.mul ((updateHandles c8Cex 0).matrix 0) pm).transformPoint
            ⟨h.x - h0.x, h.y - h0.y⟩
          = (Mat.mul (c8Cex.matrix 0) pm).transformPoint h) :=
  ⟨fun hcon => List.noConfusion hcon,
    C8_handle_normalization c8Cex 0 (fun hcon => List.noConfusion hcon)⟩

end Gaphas
